import Mathlib

/-!
Verification of the protocol-translation engine of the relay service.

The development shallowly embeds the two response converters
(`GeminiToOpenAIConverter` in `src/unnamed/part_001`,
`CodexToOpenAIConverter` in `src/src/services/codexToOpenAI.js`) and the
router's SSE frame-reassembly loops (`routeToBackend` in
`src/unnamed/part_003`).  Strings are modelled as `List Char`; JS objects
become structures whose `Option` fields track `undefined`, and the
relevant JS truthiness checks (empty string is falsy, `0` is falsy) are
reproduced explicitly at each use site.  Fields that only feed
time-dependent display metadata (`Date.now()`-derived ids, `created`
timestamps, `modelVersion`) are outside the model; no claim mentions
them.
-/

set_option linter.unusedVariables false

namespace Relay

/-- Shorthand: string literal to `List Char`. -/
def str (s : String) : List Char := s.toList

/-- JS `||` on possibly-absent strings: an absent or empty string falls
through to the default (empty string is falsy in JS). -/
def strOr (o : Option (List Char)) (d : List Char) : List Char :=
  match o with
  | some v => if v.isEmpty then d else v
  | none => d

/-- The serialized empty-object argument string produced by
`JSON.stringify({})`, i.e. `"\x7b\x7d"`. -/
def emptyArgsLit : List Char := ['\x7b', '\x7d']

/-! ### Gemini usage metadata (`_mapUsage` of the Gemini-class converter) -/

/-- Gemini `usageMetadata` as read by `_mapUsage`; `none` models an
absent (undefined) field. -/
structure GUsage where
  promptTokenCount : Option Nat
  candidatesTokenCount : Option Nat
  thoughtsTokenCount : Option Nat
  totalTokenCount : Option Nat
  cachedContentTokenCount : Option Nat
deriving Repr, DecidableEq

/-- Canonical OpenAI-style usage object; the two optional fields model
`completion_tokens_details.reasoning_tokens` and
`prompt_tokens_details.cached_tokens`. -/
structure OUsage where
  prompt_tokens : Nat
  completion_tokens : Nat
  total_tokens : Nat
  reasoning_tokens : Option Nat
  cached_tokens : Option Nat
deriving Repr, DecidableEq

/-- `GeminiToOpenAIConverter._mapUsage` on a present `usageMetadata`
(callers wrap the absent case with `Option.map`). -/
def mapUsage (m : GUsage) : OUsage :=
  { prompt_tokens := m.promptTokenCount.getD 0
    completion_tokens := m.candidatesTokenCount.getD 0 + m.thoughtsTokenCount.getD 0
    total_tokens := m.totalTokenCount.getD 0
    reasoning_tokens :=
      if 0 < m.thoughtsTokenCount.getD 0 then m.thoughtsTokenCount else none
    cached_tokens :=
      if 0 < m.cachedContentTokenCount.getD 0 then m.cachedContentTokenCount else none }

/-! ### Finish-reason mappers -/

/-- The Gemini finish reasons recognized by `_mapFinishReason`
(already lowercased). -/
def gemToolFailureReasons : List (List Char) :=
  [str "malformed_function_call", str "too_many_tool_calls", str "unexpected_tool_call"]

/-- The Gemini content-policy finish reasons recognized by
`_mapFinishReason` (already lowercased). -/
def gemFilterReasons : List (List Char) :=
  [str "safety", str "recitation", str "blocklist", str "prohibited_content",
   str "spii", str "image_safety", str "language"]

/-- `GeminiToOpenAIConverter._mapFinishReason`. -/
def mapFinishReason (reason : List Char) : List Char :=
  let fr := reason.map Char.toLower
  if fr = str "stop" then str "stop"
  else if fr = str "max_tokens" then str "length"
  else if fr ∈ gemToolFailureReasons then str "stop"
  else if fr ∈ gemFilterReasons then str "content_filter"
  else str "stop"

/-- `CodexToOpenAIConverter._mapResponseStatus`; the arguments are
`resp.status` and `resp.incomplete_details?.reason`. -/
def mapResponseStatus (status : Option (List Char))
    (incompleteReason : Option (List Char)) : List Char :=
  match status with
  | none => str "stop"
  | some stv =>
    if stv.isEmpty ∨ stv = str "completed" then str "stop"
    else if stv = str "incomplete" then
      match incompleteReason with
      | some r =>
        if r = str "max_output_tokens" then str "length"
        else if r = str "content_filter" then str "content_filter"
        else str "length"
      | none => str "length"
    else str "stop"

/-- The four canonical finish reasons. -/
def canonicalReasons : List (List Char) :=
  [str "stop", str "length", str "tool_calls", str "content_filter"]

/-- The full list of Gemini finish reasons with a dedicated branch in
`_mapFinishReason` (lowercased). -/
def gemRecognizedReasons : List (List Char) :=
  str "stop" :: str "max_tokens" :: (gemToolFailureReasons ++ gemFilterReasons)

/-! ### Gemini streaming frame data and the chunk converter -/

/-- A `functionCall` part payload; `args` holds the serialized form of
`JSON.stringify(part.functionCall.args)`, absent when `args` is. -/
structure FnCall where
  name : List Char
  args : Option (List Char)
deriving Repr, DecidableEq

/-- An `inlineData` part payload (`mimeType`/`mime_type` collapsed into
one optional field, as the code reads them with `||`). -/
structure InlineData where
  mimeType : Option (List Char)
  data : Option (List Char)
deriving Repr, DecidableEq

/-- One element of `candidate.content.parts`. -/
structure GPart where
  text : Option (List Char)
  thought : Bool
  functionCall : Option FnCall
  inlineData : Option InlineData
  thoughtSignature : Bool
deriving Repr, DecidableEq

/-- One element of `data.candidates`. -/
structure GCandidate where
  index : Option Nat
  parts : List GPart
  finishReason : Option (List Char)
deriving Repr, DecidableEq

/-- One parsed Gemini streaming frame as consumed by
`_convertGeminiChunkToOpenAI` (display-metadata fields omitted, see
module header). -/
structure GFrame where
  candidates : List GCandidate
  usageMetadata : Option GUsage
deriving Repr, DecidableEq

/-- The conversion-relevant part of the per-stream state built by
`createStreamState` (the SSE `buffer` is modelled separately with the
frame reassembler; id/model/created are display metadata). -/
structure GState where
  functionIndex : Nat
  candidatesWithFunctionCalls : List Nat
  roleSent : Bool
deriving Repr, DecidableEq

/-- Fresh state, as produced by `createStreamState`. -/
def freshGState : GState :=
  { functionIndex := 0, candidatesWithFunctionCalls := [], roleSent := false }

/-- The delta of an emitted canonical chunk. -/
inductive GDelta where
  | empty : GDelta
  | content (t : List Char) : GDelta
  | reasoning (t : List Char) : GDelta
  | toolCall (slot : Nat) (name : List Char) (args : List Char) : GDelta
  | image (mime : List Char) (data : List Char) : GDelta
deriving Repr, DecidableEq

/-- One emitted canonical streaming chunk: `choices[0]` of the JS chunk
object. `roleMark` records whether `_injectRole` put
`role: "assistant"` into the delta. -/
structure GChunk where
  index : Nat
  roleMark : Bool
  delta : GDelta
  finish : Option (List Char)
  usage : Option OUsage
deriving Repr, DecidableEq

/-- JS truthiness of the skip-test `!part.text`: both an absent text and
an empty text string are falsy. -/
def textFalsy : Option (List Char) → Bool
  | none => true
  | some t => t.isEmpty

/-- The `thoughtSignature`-only skip test at the top of the part loops:
a part carrying only an opaque continuation signature is dropped. -/
def partSkipped (p : GPart) : Bool :=
  p.thoughtSignature && textFalsy p.text && p.functionCall.isNone && p.inlineData.isNone

/-- JS truthiness of `candidate.finishReason`: present and non-empty. -/
def frTruthy : Option (List Char) → Bool
  | none => false
  | some s => !s.isEmpty

/-- State after `_injectRole` ran: the `roleSent` flag is set (setting
an already-set flag is a no-op, so this is unconditional). -/
def markRole (st : GState) : GState := { st with roleSent := true }

/-- Conversion of one content part inside
`_convertGeminiChunkToOpenAI`'s part loop.  `_injectRole` is inlined:
the emitted delta carries `role` exactly when `roleSent` was still
false, and the flag is set afterwards. -/
def convertPart (st : GState) (cidx : Nat) (p : GPart) : GState × List GChunk :=
  if partSkipped p then (st, [])
  else
    match p.functionCall with
    | some fc =>
      ({ st with
          candidatesWithFunctionCalls := cidx :: st.candidatesWithFunctionCalls,
          roleSent := true, functionIndex := st.functionIndex + 1 },
       [{ index := cidx, roleMark := !st.roleSent,
          delta := .toolCall st.functionIndex fc.name (fc.args.getD emptyArgsLit),
          finish := none, usage := none }])
    | none =>
      match p.text with
      | some t =>
        (markRole st,
         [{ index := cidx, roleMark := !st.roleSent,
            delta := if p.thought then .reasoning t else .content t,
            finish := none, usage := none }])
      | none =>
        match p.inlineData with
        | some d =>
          match d.data with
          | some bytes =>
            if bytes.isEmpty then (st, [])
            else
              (markRole st,
               [{ index := cidx, roleMark := !st.roleSent,
                  delta := .image (strOr d.mimeType (str "image/png")) bytes,
                  finish := none, usage := none }])
          | none => (st, [])
        | none => (st, [])

/-- The part loop of `_convertGeminiChunkToOpenAI` over one candidate's
parts, threading the stream state. -/
def convertParts (st : GState) (cidx : Nat) : List GPart → GState × List GChunk
  | [] => (st, [])
  | p :: ps =>
    let r1 := convertPart st cidx p
    let r2 := convertParts r1.1 cidx ps
    (r2.1, r1.2 ++ r2.2)

/-- One candidate of `_convertGeminiChunkToOpenAI`: the part loop
followed by the per-candidate terminal chunk when `finishReason` is
truthy. `u` is the frame's `usageMetadata`. -/
def convertCandidate (st : GState) (u : Option GUsage) (i : Nat) (c : GCandidate) :
    GState × List GChunk :=
  let cidx := c.index.getD i
  let r := convertParts st cidx c.parts
  match c.finishReason with
  | some fr =>
    if fr.isEmpty then r
    else
      (r.1, r.2 ++
        [{ index := cidx, roleMark := false, delta := .empty,
           finish := some (if cidx ∈ r.1.candidatesWithFunctionCalls then
             str "tool_calls" else mapFinishReason fr),
           usage := u.map mapUsage }])
  | none => r

/-- The candidate loop of `_convertGeminiChunkToOpenAI`, with the JS
positional index used as default candidate index. -/
def convertCandidates (u : Option GUsage) : GState → Nat → List GCandidate →
    GState × List GChunk
  | st, _, [] => (st, [])
  | st, i, c :: cs =>
    let r1 := convertCandidate st u i c
    let r2 := convertCandidates u r1.1 (i + 1) cs
    (r2.1, r1.2 ++ r2.2)

/-- `_convertGeminiChunkToOpenAI`: one parsed frame to a list of
canonical chunks (the usage-only final frame produces a single terminal
chunk at index 0 with reason `stop`). -/
def convertGeminiChunkToOpenAI (d : GFrame) (st : GState) : GState × List GChunk :=
  if d.candidates.isEmpty && d.usageMetadata.isSome then
    (st, [{ index := 0, roleMark := false, delta := .empty,
            finish := some (str "stop"), usage := d.usageMetadata.map mapUsage }])
  else convertCandidates d.usageMetadata st 0 d.candidates

/-- Feeding a list of parsed frames through the converter in order with
one shared stream state. -/
def processGFrames : GState → List GFrame → GState × List GChunk
  | st, [] => (st, [])
  | st, f :: fs =>
    let r1 := convertGeminiChunkToOpenAI f st
    let r2 := processGFrames r1.1 fs
    (r2.1, r1.2 ++ r2.2)

end Relay

namespace Relay

/-! ### Gemini non-streaming response conversion (`convertResponse`) -/

/-- A converted tool call of a non-streaming choice (the
`Date.now()`-based id is display metadata, outside the model). -/
structure OToolCall where
  name : List Char
  arguments : List Char
deriving Repr, DecidableEq

/-- A converted inline image of a non-streaming choice. -/
structure OImage where
  mimeType : List Char
  data : List Char
deriving Repr, DecidableEq

/-- The converted assistant message of one choice. `content = none`
models the explicit `null` the code assigns when no text part exists. -/
structure OMessage where
  content : Option (List Char)
  reasoning_content : Option (List Char)
  tool_calls : List OToolCall
  images : List OImage
deriving Repr, DecidableEq

/-- One converted choice of a non-streaming response. -/
structure OChoice where
  index : Nat
  message : OMessage
  finish_reason : List Char
deriving Repr, DecidableEq

/-- The converted non-streaming response (id/created/model display
metadata omitted). -/
structure OResponse where
  choices : List OChoice
  usage : Option OUsage
deriving Repr, DecidableEq

/-- The part-classification loop of the non-streaming `convertResponse`:
accumulates answer texts, thought texts, tool calls and images in part
order, with the same skip rule and branch order as the streaming path. -/
def collectParts : List GPart →
    List (List Char) × List (List Char) × List OToolCall × List OImage
  | [] => ([], [], [], [])
  | p :: ps =>
    let (ts, hs, tcs, ims) := collectParts ps
    if partSkipped p then (ts, hs, tcs, ims)
    else
      match p.functionCall with
      | some fc =>
        (ts, hs, { name := fc.name, arguments := fc.args.getD emptyArgsLit } :: tcs, ims)
      | none =>
        match p.text with
        | some t => if p.thought then (ts, t :: hs, tcs, ims) else (t :: ts, hs, tcs, ims)
        | none =>
          match p.inlineData with
          | some d =>
            match d.data with
            | some bytes =>
              if bytes.isEmpty then (ts, hs, tcs, ims)
              else (ts, hs, tcs,
                { mimeType := strOr d.mimeType (str "image/png"), data := bytes } :: ims)
            | none => (ts, hs, tcs, ims)
          | none => (ts, hs, tcs, ims)

/-- One candidate of the non-streaming `convertResponse`. -/
def convertResponseCandidate (i : Nat) (c : GCandidate) : OChoice :=
  let (ts, hs, tcs, ims) := collectParts c.parts
  { index := c.index.getD i
    message :=
      { content := if ts.isEmpty then none else some ts.flatten
        reasoning_content := if hs.isEmpty then none else some hs.flatten
        tool_calls := tcs
        images := ims }
    finish_reason :=
      if !tcs.isEmpty then str "tool_calls"
      else if frTruthy c.finishReason then mapFinishReason (c.finishReason.getD [])
      else str "stop" }

/-- The candidate map of the non-streaming `convertResponse`. -/
def convertResponseChoices : Nat → List GCandidate → List OChoice
  | _, [] => []
  | i, c :: cs => convertResponseCandidate i c :: convertResponseChoices (i + 1) cs

/-- `GeminiToOpenAIConverter.convertResponse` (non-streaming). -/
def convertResponse (d : GFrame) : OResponse :=
  { choices := convertResponseChoices 0 d.candidates
    usage := d.usageMetadata.map mapUsage }

/-! ### Counting helpers for the streaming invariants -/

/-- Number of emitted chunks for choice `k` whose `finish_reason` is
non-null. -/
def finishCount (outs : List GChunk) (k : Nat) : Nat :=
  (outs.filter (fun c => c.index == k && c.finish.isSome)).length

/-- Number of candidates in a frame's candidate list (enumerated from
position `i`) that terminally signal choice `k`, i.e. resolve to index
`k` and carry a truthy `finishReason`. -/
def candSignals : Nat → List GCandidate → Nat → Nat
  | _, [], _ => 0
  | i, c :: cs, k =>
    (if c.index.getD i == k && frTruthy c.finishReason then 1 else 0) +
      candSignals (i + 1) cs k

/-- Number of native terminal signals a frame carries for choice `k`: a
usage-only frame counts as a signal for choice 0, and each candidate
with a truthy `finishReason` counts for its resolved index. -/
def frameSignals (f : GFrame) (k : Nat) : Nat :=
  (if f.candidates.isEmpty && f.usageMetadata.isSome && k == 0 then 1 else 0) +
    candSignals 0 f.candidates k

/-- Number of emitted chunks whose delta carries the `role` field. -/
def roleCount (outs : List GChunk) : Nat :=
  (outs.filter (fun c => c.roleMark)).length

/-- The concrete first frame of the streaming scenario: one candidate
whose single part is the text `"Hi"`. -/
def scenarioHiPart : GPart :=
  { text := some (str "Hi"), thought := false, functionCall := none,
    inlineData := none, thoughtSignature := false }

/-- Candidate list of the first scenario frame. -/
def scenarioCand1 : GCandidate :=
  { index := none, parts := [scenarioHiPart], finishReason := none }

/-- First scenario frame. -/
def scenarioFrame1 : GFrame := { candidates := [scenarioCand1], usageMetadata := none }

/-- Usage metadata of the second scenario frame. -/
def scenarioUsage : GUsage :=
  { promptTokenCount := some 5, candidatesTokenCount := some 2,
    thoughtsTokenCount := none, totalTokenCount := some 7,
    cachedContentTokenCount := none }

/-- Candidate list of the second scenario frame. -/
def scenarioCand2 : GCandidate :=
  { index := none, parts := [], finishReason := some (str "STOP") }

/-- Second scenario frame: terminal `STOP` plus usage metadata. -/
def scenarioFrame2 : GFrame :=
  { candidates := [scenarioCand2], usageMetadata := some scenarioUsage }

/-- A usage object whose prompt + completion sum differs from its
reported total. -/
def sampleUsage : GUsage :=
  { promptTokenCount := some 5, candidatesTokenCount := some 2,
    thoughtsTokenCount := some 3, totalTokenCount := some 7,
    cachedContentTokenCount := none }

end Relay

namespace Relay

/-- Frame with a bare terminal candidate (`finishReason: "STOP"`, no
parts) and no usage. -/
def c4FrameA : GFrame := { candidates := [scenarioCand2], usageMetadata := none }

/-- Usage-only frame (no candidates). -/
def c4FrameB : GFrame := { candidates := [], usageMetadata := some scenarioUsage }

/-! ### Codex (Responses-style) streaming converter -/

/-- An output item as read by the `output_item` handlers. -/
structure CodexItem where
  type : List Char
  call_id : Option (List Char)
  id : Option (List Char)
  name : Option (List Char)
  arguments : Option (List Char)
deriving Repr, DecidableEq

/-- A backend error payload (`resp.error`). -/
structure CodexErr where
  message : Option (List Char)
  type : Option (List Char)
  code : Option (List Char)
deriving Repr, DecidableEq

/-- Responses-style usage as read by the Codex `_mapUsage`
(`cached_tokens` and `reasoning_tokens` stand for the two
`*_tokens_details` sub-fields). -/
structure CxUsage where
  input_tokens : Option Nat
  output_tokens : Option Nat
  total_tokens : Option Nat
  cached_tokens : Option Nat
  reasoning_tokens : Option Nat
deriving Repr, DecidableEq

/-- The `response` object carried by terminal events.  `created_at` is
modelled in its numeric form only (the string form goes through a
`Date` parse, which is environment behaviour outside the model);
`incompleteReason` stands for `incomplete_details?.reason`. -/
structure CodexResp where
  id : Option (List Char)
  created_at : Option Int
  model : Option (List Char)
  status : Option (List Char)
  incompleteReason : Option (List Char)
  usage : Option CxUsage
  error : Option CodexErr
deriving Repr, DecidableEq

/-- The `response` default `{}` used via `eventData.response || {}`. -/
def defaultCodexResp : CodexResp :=
  { id := none, created_at := none, model := none, status := none,
    incompleteReason := none, usage := none, error := none }

/-- The tagged union of SSE event shapes dispatched by the Codex
`convertStreamChunk` switch; `other` covers a missing `type` and every
unrecognized tag.  The backend `output_index` field is never read by
the code and therefore has no counterpart here. -/
inductive CodexEvent where
  | created (resp : Option CodexResp)
  | reasoningSummaryDelta (delta : Option (List Char))
  | reasoningSummaryDone
  | outputTextDelta (delta : Option (List Char))
  | outputItemAdded (item : Option CodexItem)
  | argumentsDelta (delta : Option (List Char))
  | argumentsDone (arguments : Option (List Char))
  | outputItemDone (item : Option CodexItem)
  | completed (resp : Option CodexResp)
  | failed (resp : Option CodexResp)
  | incomplete (resp : Option CodexResp)
  | errorEvent (message : Option (List Char)) (code : Option (List Char))
  | other
deriving Repr, DecidableEq

/-- The per-stream state of `createStreamState` for the Codex
converter. -/
structure CState where
  responseId : List Char
  createdAt : Int
  model : List Char
  functionCallIndex : Int
  hasReceivedArgumentsDelta : Bool
  hasToolCallAnnounced : Bool
  roleSent : Bool
deriving Repr, DecidableEq

/-- Fresh Codex stream state (`functionCallIndex` starts at `-1`). -/
def freshCState : CState :=
  { responseId := [], createdAt := 0, model := [], functionCallIndex := -1,
    hasReceivedArgumentsDelta := false, hasToolCallAnnounced := false,
    roleSent := false }

/-- A `tool_calls[0]` entry of an emitted delta. `announce` records the
announcement shape (`id` + `type: "function"` + `function.name`), as
opposed to the argument-fragment shape. -/
structure CToolCallDelta where
  slot : Int
  announce : Bool
  callId : Option (List Char)
  name : Option (List Char)
  arguments : Option (List Char)
deriving Repr, DecidableEq

/-- The delta of an emitted Codex-side chunk. -/
structure CDelta where
  role : Bool
  content : Option (List Char)
  reasoning_content : Option (List Char)
  tool : Option CToolCallDelta
deriving Repr, DecidableEq

/-- The empty delta `{}` of `_makeChunk`. -/
def emptyCDelta : CDelta :=
  { role := false, content := none, reasoning_content := none, tool := none }

/-- One emitted Codex-side chunk (`choices[0]` plus usage; display
metadata omitted as before). -/
structure CChunk where
  delta : CDelta
  finish : Option (List Char)
  usage : Option OUsage
deriving Repr, DecidableEq

/-- One unit written by the Codex converter: a canonical chunk or a
literal error SSE event. -/
inductive CodexOut where
  | chunk (c : CChunk)
  | errorOut (message : List Char) (etype : List Char) (code : Option (List Char))
deriving Repr, DecidableEq

/-- JS `a || b` where `a` is a possibly-absent string and `b` is
returned verbatim when `a` is falsy. -/
def jsOrOpt (a b : Option (List Char)) : Option (List Char) :=
  match a with
  | some v => if v.isEmpty then b else some v
  | none => b

/-- JS `c || null`: a falsy code becomes `null`. -/
def jsCodeOr (c : Option (List Char)) : Option (List Char) :=
  match c with
  | some v => if v.isEmpty then none else some v
  | none => none

/-- `CodexToOpenAIConverter._mapUsage` on a present usage object. -/
def mapCxUsage (u : CxUsage) : OUsage :=
  { prompt_tokens := u.input_tokens.getD 0
    completion_tokens := u.output_tokens.getD 0
    total_tokens := u.total_tokens.getD 0
    reasoning_tokens := if 0 < u.reasoning_tokens.getD 0 then u.reasoning_tokens else none
    cached_tokens := if 0 < u.cached_tokens.getD 0 then u.cached_tokens else none }

/-- State after the Codex `_emitChunk` role injection (see
`markRole`). -/
def markCRole (st : CState) : CState := { st with roleSent := true }

/-- `_emitChunk`: wrap a delta into a chunk, injecting the role into
exactly the first delta of the stream. -/
def emitChunk (st : CState) (d : CDelta) : CState × List CodexOut :=
  (markCRole st,
   [.chunk { delta := { d with role := !st.roleSent }, finish := none, usage := none }])

/-- `_handleResponseCreated`: capture backend id/timestamp/model; no
output.  `created_at = 0` is falsy in JS and is not captured. -/
def handleResponseCreated (st : CState) (resp : Option CodexResp) :
    CState × List CodexOut :=
  let r := resp.getD defaultCodexResp
  let st1 := { st with responseId := strOr r.id [] }
  let st2 :=
    match r.created_at with
    | some v => if v = 0 then st1 else { st1 with createdAt := v }
    | none => st1
  ({ st2 with model := strOr r.model [] }, [])

/-- `_handleOutputItemAdded` (with `_restoreToolName` supplied as the
ambient instance state `restore`). -/
def handleOutputItemAdded (restore : List Char → List Char) (st : CState)
    (item : Option CodexItem) : CState × List CodexOut :=
  match item with
  | some it =>
    if it.type = str "function_call" then
      let st1 : CState := { st with
        functionCallIndex := st.functionCallIndex + 1,
        hasReceivedArgumentsDelta := false, hasToolCallAnnounced := true }
      let t : CToolCallDelta :=
        { slot := st1.functionCallIndex, announce := true,
          callId := jsOrOpt it.call_id it.id, name := it.name.map restore,
          arguments := some [] }
      emitChunk st1 { emptyCDelta with tool := some t }
    else (st, [])
  | none => (st, [])

/-- `_handleArgumentsDelta`. -/
def handleArgumentsDelta (st : CState) (delta : Option (List Char)) :
    CState × List CodexOut :=
  let st1 : CState := { st with hasReceivedArgumentsDelta := true }
  let t : CToolCallDelta :=
    { slot := st1.functionCallIndex, announce := false,
      callId := none, name := none, arguments := delta }
  emitChunk st1 { emptyCDelta with tool := some t }

/-- `_handleArgumentsDone`: emit the full arguments only when no delta
was streamed. -/
def handleArgumentsDone (st : CState) (args : Option (List Char)) :
    CState × List CodexOut :=
  if st.hasReceivedArgumentsDelta then (st, [])
  else
    let t : CToolCallDelta :=
      { slot := st.functionCallIndex, announce := false,
        callId := none, name := none, arguments := some (strOr args emptyArgsLit) }
    emitChunk st { emptyCDelta with tool := some t }

/-- `_handleOutputItemDone`: swallow the duplicate after an `added`
announcement, otherwise announce via the fallback path (incrementing
the slot). -/
def handleOutputItemDone (restore : List Char → List Char) (st : CState)
    (item : Option CodexItem) : CState × List CodexOut :=
  match item with
  | some it =>
    if it.type = str "function_call" then
      if st.hasToolCallAnnounced then ({ st with hasToolCallAnnounced := false }, [])
      else
        let st1 : CState := { st with functionCallIndex := st.functionCallIndex + 1 }
        let t : CToolCallDelta :=
          { slot := st1.functionCallIndex, announce := true,
            callId := jsOrOpt it.call_id it.id, name := it.name.map restore,
            arguments := some (strOr it.arguments emptyArgsLit) }
        emitChunk st1 { emptyCDelta with tool := some t }
    else (st, [])
  | none => (st, [])

/-- `_handleResponseCompleted`: one terminal chunk built by `_makeChunk`
(empty delta, no role injection). -/
def handleResponseCompleted (st : CState) (resp : Option CodexResp) :
    CState × List CodexOut :=
  let r := resp.getD defaultCodexResp
  (st, [.chunk
    { delta := emptyCDelta
      finish := some (if 0 ≤ st.functionCallIndex then str "tool_calls"
        else mapResponseStatus r.status r.incompleteReason)
      usage := r.usage.map mapCxUsage }])

/-- `_handleResponseError` (shared by `response.failed` and
`response.incomplete`): a literal error event when the status is
`failed`, a terminal chunk otherwise. -/
def handleResponseError (st : CState) (resp : Option CodexResp) :
    CState × List CodexOut :=
  let r := resp.getD defaultCodexResp
  let errOuts : List CodexOut :=
    if r.status = some (str "failed") then
      let e := r.error.getD { message := none, type := none, code := none }
      [.errorOut (strOr e.message (str "Response failed"))
        (strOr e.type (str "server_error")) (jsCodeOr e.code)]
    else []
  let chunkOuts : List CodexOut :=
    if r.status ≠ some (str "failed") then
      [.chunk
        { delta := emptyCDelta
          finish := some (if 0 ≤ st.functionCallIndex then str "tool_calls"
            else mapResponseStatus r.status r.incompleteReason)
          usage := r.usage.map mapCxUsage }]
    else []
  (st, errOuts ++ chunkOuts)

/-- `_handleStreamError` for the top-level `error` event. -/
def handleStreamError (message code : Option (List Char)) : List CodexOut :=
  [.errorOut (strOr message (str "Unknown error")) (str "server_error") (jsCodeOr code)]

/-- `CodexToOpenAIConverter.convertStreamChunk`: the event-type switch. -/
def codexStep (restore : List Char → List Char) (st : CState) (e : CodexEvent) :
    CState × List CodexOut :=
  match e with
  | .created resp => handleResponseCreated st resp
  | .reasoningSummaryDelta d => emitChunk st { emptyCDelta with reasoning_content := d }
  | .reasoningSummaryDone => (st, [])
  | .outputTextDelta d => emitChunk st { emptyCDelta with content := d }
  | .outputItemAdded item => handleOutputItemAdded restore st item
  | .argumentsDelta d => handleArgumentsDelta st d
  | .argumentsDone args => handleArgumentsDone st args
  | .outputItemDone item => handleOutputItemDone restore st item
  | .completed resp => handleResponseCompleted st resp
  | .failed resp => handleResponseError st resp
  | .incomplete resp => handleResponseError st resp
  | .errorEvent m c => (st, handleStreamError m c)
  | .other => (st, [])

/-- Feeding an event list through the Codex converter in order with one
shared stream state. -/
def runCodex (restore : List Char → List Char) : CState → List CodexEvent →
    CState × List CodexOut
  | st, [] => (st, [])
  | st, e :: es =>
    let r1 := codexStep restore st e
    let r2 := runCodex restore r1.1 es
    (r2.1, r1.2 ++ r2.2)

/-- The slot values of the announcement chunks, in emission order. -/
def announceSlots (outs : List CodexOut) : List Int :=
  outs.filterMap fun o =>
    match o with
    | .chunk c =>
      match c.delta.tool with
      | some t => if t.announce then some t.slot else none
      | none => none
    | .errorOut _ _ _ => none

/-- Number of Codex-side chunks whose delta carries the role field. -/
def cRoleCount (outs : List CodexOut) : Nat :=
  (outs.filter fun o =>
    match o with
    | .chunk c => c.delta.role
    | .errorOut _ _ _ => false).length

/-- Number of role-flag flips between two Boolean flag states: the role
field is emitted exactly when the flag goes from unset to set. -/
def roleFlips (a b : Bool) : Nat := if a then 0 else if b then 1 else 0

/-! ### Router `res.json` interception (non-streaming paths) -/

/-- Outcome of a patched `res.json` call: the converted payload, the
original payload passed through, or an uncaught exception propagating
out of the patched method. -/
inductive ResJsonOut (α β : Type) where
  | converted (b : β)
  | passthrough (a : α)
  | raised (e : List Char)
deriving Repr, DecidableEq

/-- The patched `res.json` of the Codex/Responses branch of
`routeToBackend`: status ≥ 400 and non-response-shaped payloads pass
through; the conversion runs inside `try`/`catch`, and a conversion
exception falls back to the original payload.  The conversion itself is
a parameter (its JS counterpart is `codexConverter.convertResponse`,
whose exceptions are modelled by `Except.error`). -/
def openaiResJson {α β : Type} (statusCode : Nat) (isResponseShaped : α → Bool)
    (convert : α → Except (List Char) β) (data : α) : ResJsonOut α β :=
  if 400 ≤ statusCode then .passthrough data
  else if isResponseShaped data then
    match convert data with
    | .ok r => .converted r
    | .error _ => .passthrough data
  else .passthrough data

/-- The patched `res.json` of the Gemini branch of `routeToBackend`:
same dispatch shape, but the conversion call is not wrapped in
`try`/`catch`, so a conversion exception propagates out of the patched
method. -/
def geminiResJson {α β : Type} (statusCode : Nat) (hasCandidates : α → Bool)
    (convert : α → Except (List Char) β) (data : α) : ResJsonOut α β :=
  if 400 ≤ statusCode then .passthrough data
  else if hasCandidates data then
    match convert data with
    | .ok r => .converted r
    | .error e => .raised e
  else .passthrough data

/-! ### Tool-name shortening (`_buildShortNameMap`, `_restoreToolName`)

The JS `for (let i = 1; ; i++)` collision loop is unbounded; it is
modelled with `Nat.find` over the always-true existence fact proved
below (`exists_tryCand_unused`): candidates sharing a digit count are
pairwise distinct, so a digit class larger than the finite used set
cannot be exhausted. -/

/-- The namespace separator `"__"`. -/
def uuMark : List Char := ['_', '_']

/-- The `"mcp__"` namespace marker. -/
def mcpMark : List Char := str "mcp__"

/-- JS `name.lastIndexOf("__")`: the greatest position where `"__"`
occurs, if any. -/
def lastUU (n : List Char) : Option Nat :=
  ((List.range n.length).filter (fun p => uuMark.isPrefixOf (n.drop p))).getLast?

/-- Decimal digit characters of `i` (JS template `_${i}` suffixes use
`i ≥ 1`). -/
def repNat (i : Nat) : List Char :=
  ((Nat.digits 10 i).map Nat.digitChar).reverse

/-- JS `l.slice(0, e)` with a possibly negative end index (a negative
end counts from the end of the string, clamped at zero). -/
def jsSliceTo (l : List Char) (e : Int) : List Char :=
  if 0 ≤ e then l.take e.toNat else l.take (l.length - (-e).toNat)

/-- The `LIMIT = 64` of the tool-name normalizer. -/
def nameLimit : Nat := 64

/-- `baseCandidate` inside `_buildShortNameMap`: within-limit names
pass through; over-limit `mcp__…` names keep the marker plus the tail
after the last `"__"` (re-truncated); other over-limit names are cut at
the limit. -/
def baseCandidate (n : List Char) : List Char :=
  if n.length ≤ nameLimit then n
  else if mcpMark.isPrefixOf n then
    match lastUU n with
    | some p =>
      if 0 < p then
        let cand := mcpMark ++ n.drop (p + 2)
        if nameLimit < cand.length then cand.take nameLimit else cand
      else n.take nameLimit
    | none => n.take nameLimit
  else n.take nameLimit

/-- The `i`-th collision candidate of `makeUnique`: the base truncated
to leave room for the suffix `_<i>` (with JS negative-slice semantics
when the suffix alone exceeds the limit). -/
def tryCand (base : List Char) (i : Nat) : List Char :=
  let suf := '_' :: repNat i
  let allowed : Int := (nameLimit : Int) - suf.length
  (if allowed < (base.length : Int) then jsSliceTo base allowed else base) ++ suf

/-- `Nat.digitChar` is injective below 10. -/
def digitChar_inj_below : ∀ a < 10, ∀ b < 10,
    Nat.digitChar a = Nat.digitChar b → a = b := by decide

/-- Mapping `digitChar` over lists of digits (< 10) is injective. -/
def mapDigitChar_inj : ∀ xs : List Nat, (∀ x ∈ xs, x < 10) →
    ∀ ys : List Nat, (∀ y ∈ ys, y < 10) →
    xs.map Nat.digitChar = ys.map Nat.digitChar → xs = ys
  | [], _, [], _, _ => rfl
  | [], _, _ :: _, _, h => by simp at h
  | _ :: _, _, [], _, h => by simp at h
  | x :: xs, hx, y :: ys, hy, h => by
    simp only [List.map_cons, List.cons.injEq] at h
    have hxy := digitChar_inj_below x (hx x (by simp)) y (hy y (by simp)) h.1
    have htl := mapDigitChar_inj xs (fun z hz => hx z (by simp [hz]))
      ys (fun z hz => hy z (by simp [hz])) h.2
    simp [hxy, htl]

/-- `repNat` is injective. -/
def repNat_inj (i j : Nat) (h : repNat i = repNat j) : i = j := by
  unfold repNat at h
  have h2 := List.reverse_injective h
  have h3 := mapDigitChar_inj _ (fun x hx => Nat.digits_lt_base (by norm_num) hx) _
    (fun y hy => Nat.digits_lt_base (by norm_num) hy) h2
  have h4 := congrArg (Nat.ofDigits 10) h3
  rwa [Nat.ofDigits_digits, Nat.ofDigits_digits] at h4

/-- The digit count of a class member `10^e ≤ i < 10^(e+1)` is
`e + 1`. -/
def repNat_length_class (e i : Nat) (h1 : 10 ^ e ≤ i) (h2 : i < 10 ^ (e + 1)) :
    (repNat i).length = e + 1 := by
  have hi : i ≠ 0 := by
    have : 0 < 10 ^ e := Nat.pos_pow_of_pos e (by norm_num)
    omega
  simp only [repNat, List.length_reverse, List.length_map]
  rw [Nat.digits_len 10 i (by norm_num) hi, Nat.log_eq_of_pow_le_of_lt_pow h1 h2]

/-- Candidates with the same digit count are pairwise distinct. -/
def tryCand_inj_class (base : List Char) (i j : Nat)
    (hlen : (repNat i).length = (repNat j).length)
    (h : tryCand base i = tryCand base j) : i = j := by
  unfold tryCand at h
  simp only [List.length_cons] at h
  rw [hlen] at h
  have h2 := List.append_cancel_left h
  simp only [List.cons.injEq, true_and] at h2
  exact repNat_inj i j h2

/-- Pigeonhole in one digit class: among the candidates indexed
`10^e … 10^e + |used|`, at least one is unused whenever the class is
larger than the used set. -/
def exists_tryCand_unused_in_class (used : List (List Char)) (base : List Char)
    (e : Nat) (h : used.length < 10 ^ e) :
    ∃ i : Nat, 10 ^ e ≤ i ∧ i ≤ 10 ^ e + used.length ∧ tryCand base i ∉ used := by
  by_contra hall
  push_neg at hall
  have hmem : ∀ k ∈ Finset.range (used.length + 1), tryCand base (10 ^ e + k) ∈ used := by
    intro k hk
    simp only [Finset.mem_range] at hk
    exact hall (10 ^ e + k) (Nat.le_add_right _ _) (by omega)
  have h10 : 10 ^ (e + 1) = 10 * 10 ^ e := by ring
  have hclass : ∀ k ∈ Finset.range (used.length + 1),
      (repNat (10 ^ e + k)).length = e + 1 := by
    intro k hk
    simp only [Finset.mem_range] at hk
    exact repNat_length_class e _ (Nat.le_add_right _ _) (by omega)
  have hinj : Set.InjOn (fun k => tryCand base (10 ^ e + k))
      (Finset.range (used.length + 1)) := by
    intro a ha b hb hab
    simp only [Finset.coe_insert, Finset.mem_coe] at ha hb
    have := tryCand_inj_class base _ _
      (by rw [hclass a ha, hclass b hb]) hab
    omega
  have hsub : (Finset.range (used.length + 1)).image
      (fun k => tryCand base (10 ^ e + k)) ⊆ used.toFinset := by
    intro x hx
    simp only [Finset.mem_image] at hx
    obtain ⟨k, hk, rfl⟩ := hx
    simpa using hmem k hk
  have hcard := Finset.card_le_card hsub
  rw [Finset.card_image_of_injOn hinj, Finset.card_range] at hcard
  have hfin := List.toFinset_card_le used
  omega

/-- The JS collision loop always finds an unused suffixed candidate. -/
def exists_tryCand_unused (used : List (List Char)) (base : List Char) :
    ∃ j : Nat, tryCand base (j + 1) ∉ used := by
  have hlt : used.length < 10 ^ used.length := by
    calc used.length < 2 ^ used.length := Nat.lt_two_pow _
    _ ≤ 10 ^ used.length := Nat.pow_le_pow_left (by norm_num) _
  obtain ⟨i, hi1, hi2, hi3⟩ := exists_tryCand_unused_in_class used base used.length hlt
  have h1 : 1 ≤ i := le_trans (Nat.one_le_pow _ _ (by norm_num)) hi1
  refine ⟨i - 1, ?_⟩
  rwa [Nat.sub_add_cancel h1]

/-- `makeUnique` of `_buildShortNameMap`: keep the candidate when it is
fresh, otherwise append `_<n>` for the least `n ≥ 1` (re-truncating)
that yields an unused name. -/
def makeUnique (used : List (List Char)) (cand : List Char) : List Char :=
  if cand ∈ used then
    tryCand cand (Nat.find (exists_tryCand_unused used cand) + 1)
  else cand

/-- The name loop of `_buildShortNameMap`, threading the used set. -/
def buildShortNameMapAux (used : List (List Char)) :
    List (List Char) → List (List Char × List Char)
  | [] => []
  | n :: ns =>
    let s := makeUnique used (baseCandidate n)
    (n, s) :: buildShortNameMapAux (s :: used) ns

/-- `CodexToOpenAIConverter._buildShortNameMap`. -/
def buildShortNameMap (names : List (List Char)) : List (List Char × List Char) :=
  buildShortNameMapAux [] names

/-- Forward lookup in the tool-name table (`this._toolNameMap[name]`,
falling back to the name itself, which never happens for table keys). -/
def forwardShortName (names : List (List Char)) (n : List Char) : List Char :=
  ((buildShortNameMap names).lookup n).getD n

/-- The reverse-map construction of `buildRequestFromOpenAI`: every
pair with `orig ≠ short` contributes `short ↦ orig`. -/
def reverseMapOf (m : List (List Char × List Char)) : List (List Char × List Char) :=
  m.filterMap (fun p => if p.1 = p.2 then none else some (p.2, p.1))

/-- `CodexToOpenAIConverter._restoreToolName`:
`reverseMap[short] || short` (an empty restored name is falsy and falls
back). -/
def restoreToolName (rmap : List (List Char × List Char)) (s : List Char) : List Char :=
  match rmap.lookup s with
  | some v => if v.isEmpty then s else v
  | none => s

/-! ### C1: the SSE frame reassembler

Model of the buffer loop shared by `convertStreamChunk`
(`src/unnamed/part_001`, lines 25–89) and the router's `res.end` flush
(`src/unnamed/part_003`, lines 280–308): per incoming chunk, normalize
`\r\n` to `\n`, pass a whitespace-only chunk through untouched when the
buffer is empty, otherwise append to the buffer and extract every
complete `\n\n`-delimited event; per event, each `data: `-line yields a
trimmed payload (empty and `[DONE]` payloads are consumed).  The
extracted payload sequence determines the converted output, so the
chunk-boundary-invariance claim is settled at the payload level. -/

/-- The whitespace characters of JS `trim` (ASCII range). -/
def isWS (c : Char) : Bool :=
  c == ' ' || c == '\t' || c == '\n' || c == '\r' || c == '\x0b' || c == '\x0c'

/-- JS `!s.trim()`: the string is empty or whitespace-only. -/
def wsOnly (l : List Char) : Bool := l.all isWS

/-- The per-chunk `replace(/\r\n/g, "\n")` normalization (left-to-right,
non-overlapping). -/
def normCRLF : List Char → List Char
  | [] => []
  | [c] => [c]
  | c :: d :: rest =>
    if c = '\r' ∧ d = '\n' then '\n' :: normCRLF rest
    else c :: normCRLF (d :: rest)

/-- Drop trailing whitespace. -/
def dropTrail (l : List Char) : List Char := (l.reverse.dropWhile isWS).reverse

/-- JS `String.prototype.trim` on a char list. -/
def jsTrim (l : List Char) : List Char := (dropTrail l).dropWhile isWS

/-- The `"data: "` field marker. -/
def dataMark : List Char := str "data: "

/-- The `"[DONE]"` termination token. -/
def doneMark : List Char := str "[DONE]"

/-- Payload of one event line: `line.slice(6).trim()` behind the
`data: ` check, with empty and `[DONE]` payloads consumed. -/
def linePayload (l : List Char) : Option (List Char) :=
  if dataMark.isPrefixOf l then
    let p := jsTrim (l.drop 6)
    if p = [] ∨ p = doneMark then none else some p
  else none

/-- `event.split("\n")`. -/
def splitLines : List Char → List (List Char)
  | [] => [[]]
  | c :: rest =>
    if c = '\n' then [] :: splitLines rest
    else
      match splitLines rest with
      | [] => [[c]]
      | l :: ls => (c :: l) :: ls

/-- The payloads of one complete event: a whitespace-only event is
discarded, otherwise each line contributes its `data: ` payload. -/
def eventPayloads (e : List Char) : List (List Char) :=
  if wsOnly e then [] else (splitLines e).filterMap linePayload

/-- First `"\n\n"` separator: the event before it and the rest after
it (JS `indexOf("\n\n")` + the two `slice` calls). -/
def splitNN : List Char → Option (List Char × List Char)
  | [] => none
  | [_] => none
  | c :: d :: rest =>
    if c = '\n' ∧ d = '\n' then some ([], rest)
    else (splitNN (d :: rest)).map (fun q => (c :: q.1, q.2))

/-- The `while ((idx = buffer.indexOf("\n\n")) !== -1)` loop, with fuel
(each step consumes at least two characters, so `buf.length` fuel is
always enough). -/
def extractEvents : Nat → List Char → List (List Char) × List Char
  | 0, buf => ([], buf)
  | fuel + 1, buf =>
    match splitNN buf with
    | none => ([], buf)
    | some (e, r) =>
      let q := extractEvents fuel r
      (e :: q.1, q.2)

/-- Full event extraction from a buffer. -/
def runExtract (buf : List Char) : List (List Char) × List Char :=
  extractEvents buf.length buf

/-- One `convertStreamChunk` call at the payload level: returns the new
buffer and the payloads of the events completed by this chunk.  A
whitespace-only chunk arriving at an empty buffer is passed through
(producing no frame). -/
def feedChunk (buf : List Char) (chunk : List Char) : List Char × List (List Char) :=
  let s := normCRLF chunk
  if wsOnly s ∧ buf = [] then (buf, [])
  else
    let r := runExtract (buf ++ s)
    (r.2, r.1.flatMap eventPayloads)

/-- Feeding a chunk sequence in order through one buffer. -/
def feedAll : List Char → List (List Char) → List Char × List (List Char)
  | buf, [] => (buf, [])
  | buf, c :: cs =>
    let r1 := feedChunk buf c
    let r2 := feedAll r1.1 cs
    (r2.1, r1.2 ++ r2.2)

/-- The payloads of a whole stream: all chunks in order, then the
router's end-of-stream flush of the residual buffer (achieved by
feeding a final `"\n\n"`; with an empty buffer this is a heartbeat and
flushes nothing, matching the router's `buffer.trim()` guard). -/
def streamPayloads (chunks : List (List Char)) : List (List Char) :=
  let r := feedAll [] chunks
  r.2 ++ (feedChunk r.1 (str "\n\n")).2

/-- Total payloads of a complete byte stream: extract every event, then
flush the residual. -/
def fullPayloads (s : List Char) : List (List Char) :=
  (runExtract s).1.flatMap eventPayloads ++
    (feedChunk (runExtract s).2 (str "\n\n")).2

/-- One `\r\n → \n` rewrite anywhere in a string — the difference
between normalizing chunks separately and normalizing their
concatenation (a pair can straddle a chunk boundary). -/
def RwCRLF (s t : List Char) : Prop :=
  ∃ u v, s = u ++ '\r' :: '\n' :: v ∧ t = u ++ '\n' :: v

/-! ## Theorems -/

/-- C9: feeding the Gemini streaming converter (fresh state) the text
frame `"Hi"` followed by the `STOP` + usage frame yields exactly two
canonical chunks: first `delta = {role: assistant, content: "Hi"}`, then
`finish_reason = "stop"` with usage `{5, 2, 7}`. -/
theorem c9_scenario_two_chunks :
    (processGFrames freshGState [scenarioFrame1, scenarioFrame2]).2 =
      [{ index := 0, roleMark := true, delta := .content (str "Hi"),
         finish := none, usage := none },
       { index := 0, roleMark := false, delta := .empty, finish := some (str "stop"),
         usage := some { prompt_tokens := 5, completion_tokens := 2, total_tokens := 7,
                         reasoning_tokens := none, cached_tokens := none } }] := by
  decide

end Relay

namespace Relay

/-- C10: the Gemini usage mapping computes
`completion_tokens = candidatesTokenCount + thoughtsTokenCount` (missing
counts as 0) and copies `total_tokens` verbatim from `totalTokenCount`;
the same `mapUsage` result is attached on the streaming (usage-only
terminal chunk) and non-streaming paths; consequently
`prompt_tokens + completion_tokens` can differ from `total_tokens`. -/
theorem c10_usage_accounting :
    (∀ m : GUsage,
      (mapUsage m).completion_tokens =
          m.candidatesTokenCount.getD 0 + m.thoughtsTokenCount.getD 0 ∧
        (mapUsage m).total_tokens = m.totalTokenCount.getD 0) ∧
    (∀ (m : GUsage) (st : GState),
      ((convertGeminiChunkToOpenAI { candidates := [], usageMetadata := some m } st).2).map
          (fun c => c.usage) = [some (mapUsage m)]) ∧
    (∀ d : GFrame, (convertResponse d).usage = d.usageMetadata.map mapUsage) ∧
    (mapUsage sampleUsage).prompt_tokens + (mapUsage sampleUsage).completion_tokens ≠
      (mapUsage sampleUsage).total_tokens := by
  refine ⟨fun m => ⟨rfl, rfl⟩, fun m st => rfl, fun d => rfl, by decide⟩

/-- C6: both finish-reason mappers are total into
`{stop, length, tool_calls, content_filter}`; a Gemini reason outside
the enumerated list maps to `stop`, and a Responses status other than
absent/empty/`completed`/`incomplete` maps to `stop`. -/
theorem c6_finish_reason_total :
    (∀ r : List Char, mapFinishReason r ∈ canonicalReasons) ∧
    (∀ r : List Char, r.map Char.toLower ∉ gemRecognizedReasons →
      mapFinishReason r = str "stop") ∧
    (∀ s ir, mapResponseStatus s ir ∈ canonicalReasons) ∧
    (∀ (s : List Char) ir, ¬s.isEmpty = true → s ≠ str "completed" →
      s ≠ str "incomplete" → mapResponseStatus (some s) ir = str "stop") ∧
    (∀ ir, mapResponseStatus none ir = str "stop") := by
  refine ⟨?_, ?_, ?_, ?_, fun ir => rfl⟩
  · intro r
    simp only [mapFinishReason]
    split_ifs <;> decide
  · intro r h
    simp only [gemRecognizedReasons, List.mem_cons, List.mem_append, not_or] at h
    obtain ⟨h1, h2, h3, h4⟩ := h
    simp only [mapFinishReason]
    split_ifs
    rfl
  · intro s ir
    rcases s with _ | stv
    · exact (by decide : str "stop" ∈ canonicalReasons)
    · rcases ir with _ | r
      · simp only [mapResponseStatus]
        split_ifs <;> decide
      · simp only [mapResponseStatus]
        split_ifs <;> decide
  · intro s ir h1 h2 h3
    simp only [mapResponseStatus]
    rcases ir with _ | r
    · split_ifs <;> rfl
    · split_ifs <;> rfl

/-- C6 witness: an unrecognized Gemini reason and an unrecognized
Responses status both map to `stop`. -/
theorem c6_witness :
    (str "OTHER").map Char.toLower ∉ gemRecognizedReasons ∧
    mapFinishReason (str "OTHER") = str "stop" ∧
    mapResponseStatus (some (str "cancelled")) none = str "stop" :=
  ⟨by decide, c6_finish_reason_total.2.1 _ (by decide),
   c6_finish_reason_total.2.2.2.1 _ none (by decide) (by decide) (by decide)⟩

end Relay

namespace Relay

/-- Every chunk emitted for a content part has a null `finish_reason`. -/
theorem convertPart_finish_none (st : GState) (cidx : Nat) (p : GPart) :
    ∀ ch ∈ (convertPart st cidx p).2, ch.finish = none := by
  intro ch hch
  unfold convertPart at hch
  repeat' split at hch
  all_goals simp_all

/-- `finishCount` is additive over concatenation. -/
theorem finishCount_append (a b : List GChunk) (k : Nat) :
    finishCount (a ++ b) k = finishCount a k + finishCount b k := by
  simp [finishCount, List.filter_append]

/-- The part loop emits no chunk with a non-null `finish_reason`. -/
theorem convertParts_finishCount (st : GState) (cidx : Nat) (ps : List GPart) (k : Nat) :
    finishCount (convertParts st cidx ps).2 k = 0 := by
  induction ps generalizing st with
  | nil => rfl
  | cons p ps ih =>
    simp only [convertParts, finishCount_append]
    rw [ih]
    have h := convertPart_finish_none st cidx p
    have : finishCount (convertPart st cidx p).2 k = 0 := by
      simp only [finishCount, List.length_eq_zero, List.filter_eq_nil_iff]
      intro ch hch
      simp [h ch hch]
    omega

/-- `finishCount` of a single chunk. -/
theorem finishCount_singleton (ch : GChunk) (k : Nat) :
    finishCount [ch] k = if ch.index == k && ch.finish.isSome then 1 else 0 := by
  by_cases h : (ch.index == k && ch.finish.isSome) = true <;>
    simp [finishCount, List.filter, h]

/-- One candidate contributes a non-null `finish_reason` chunk for
choice `k` exactly when it resolves to index `k` and carries a truthy
`finishReason`. -/
theorem convertCandidate_finishCount (st : GState) (u : Option GUsage) (i : Nat)
    (c : GCandidate) (k : Nat) :
    finishCount (convertCandidate st u i c).2 k =
      if c.index.getD i == k && frTruthy c.finishReason then 1 else 0 := by
  unfold convertCandidate
  rcases hfr : c.finishReason with _ | fr
  · simp [frTruthy, convertParts_finishCount]
  · by_cases he : fr.isEmpty
    · simp [he, frTruthy, convertParts_finishCount]
    · dsimp only
      rw [if_neg he]
      simp only [finishCount_append, convertParts_finishCount, Nat.zero_add,
        finishCount_singleton]
      simp [frTruthy, he]

/-- The candidate loop's non-null `finish_reason` chunk count for choice
`k` equals the number of candidates terminally signalling `k`. -/
theorem convertCandidates_finishCount (u : Option GUsage) (st : GState) (i : Nat)
    (cs : List GCandidate) (k : Nat) :
    finishCount (convertCandidates u st i cs).2 k = candSignals i cs k := by
  induction cs generalizing st i with
  | nil => rfl
  | cons c cs ih =>
    simp only [convertCandidates, candSignals, finishCount_append,
      convertCandidate_finishCount, ih]

/-- One frame's non-null `finish_reason` chunk count for choice `k`
equals the frame's native terminal-signal count for `k`. -/
theorem convertGeminiChunk_finishCount (d : GFrame) (st : GState) (k : Nat) :
    finishCount (convertGeminiChunkToOpenAI d st).2 k = frameSignals d k := by
  unfold convertGeminiChunkToOpenAI frameSignals
  by_cases hg : d.candidates.isEmpty && d.usageMetadata.isSome
  · have h1 := hg
    rw [Bool.and_eq_true] at h1
    obtain ⟨he, hu⟩ := h1
    have hc : d.candidates = [] := by
      cases hd : d.candidates <;> simp_all
    rw [if_pos hg]
    by_cases hk : k = 0
    · simp [finishCount_singleton, hc, hu, hk, candSignals, hg]
    · simp [finishCount_singleton, hc, hu, hk, candSignals, hg]
      omega
  · simp only [hg, Bool.false_eq_true, if_false, convertCandidates_finishCount,
      Bool.false_and, Nat.zero_add]

/-- C4 (amended): over any frame sequence and any starting state, the
number of emitted chunks with non-null `finish_reason` for choice `k`
equals the number of native terminal signals for `k` in the stream (a
candidate resolving to index `k` with a truthy `finishReason`, or — for
`k = 0` — a usage-only frame).  Exactly-one holds iff the stream signals
each choice exactly once; a usage-only frame after a terminal candidate
frame double-fires (see `c4_counterexample`). -/
theorem c4_finish_chunks_match_signals (st : GState) (frames : List GFrame) (k : Nat) :
    finishCount (processGFrames st frames).2 k =
      (frames.map (fun f => frameSignals f k)).sum := by
  induction frames generalizing st with
  | nil => rfl
  | cons f fs ih =>
    simp only [processGFrames, finishCount_append, convertGeminiChunk_finishCount,
      List.map_cons, List.sum_cons, ih]

/-- C4 counterexample: a terminal `STOP` frame for candidate 0 followed
by a usage-only frame produces two chunks with non-null `finish_reason`
for choice 0, so a choice does not always receive exactly one terminal
chunk. -/
theorem c4_counterexample :
    finishCount (processGFrames freshGState [c4FrameA, c4FrameB]).2 0 = 2 := by
  decide

end Relay

namespace Relay

/-! ### C7: slot counter -/

/-- `announceSlots` distributes over concatenation. -/
theorem announceSlots_append (a b : List CodexOut) :
    announceSlots (a ++ b) = announceSlots a ++ announceSlots b := by
  simp [announceSlots, List.filterMap_append]

/-- Consecutive-slot lists: prepending the base value to the list
shifted by one gives the list over a range one longer. -/
theorem consecutive_cons (v : Int) (n : Nat) :
    v :: (List.range n).map (fun j : Nat => v + 1 + (j : Int)) =
      (List.range (n + 1)).map (fun j : Nat => v + (j : Int)) := by
  rw [List.range_succ_eq_map, List.map_cons, List.map_map]
  congr 1
  · simp
  · apply List.map_congr_left
    intro j hj
    simp only [Function.comp_apply]
    push_cast
    ring

/-- One event either announces no call and leaves the slot counter
unchanged, or announces exactly one call at the freshly incremented
slot. -/
theorem codexStep_slots (restore : List Char → List Char) (st : CState) (e : CodexEvent) :
    (announceSlots (codexStep restore st e).2 = [] ∧
      (codexStep restore st e).1.functionCallIndex = st.functionCallIndex) ∨
    (announceSlots (codexStep restore st e).2 = [st.functionCallIndex + 1] ∧
      (codexStep restore st e).1.functionCallIndex = st.functionCallIndex + 1) := by
  cases e with
  | created resp =>
    left
    refine ⟨rfl, ?_⟩
    show (handleResponseCreated st resp).1.functionCallIndex = st.functionCallIndex
    unfold handleResponseCreated
    rcases resp with _ | r
    · rfl
    · dsimp only [Option.getD]
      rcases r.created_at with _ | v
      · rfl
      · by_cases hv : v = 0 <;> simp [hv]
  | reasoningSummaryDelta d => left; exact ⟨rfl, rfl⟩
  | reasoningSummaryDone => left; exact ⟨rfl, rfl⟩
  | outputTextDelta d => left; exact ⟨rfl, rfl⟩
  | outputItemAdded item =>
    rcases item with _ | it
    · left; exact ⟨rfl, rfl⟩
    · by_cases ht : it.type = str "function_call"
      · right
        refine ⟨?_, ?_⟩ <;>
          simp [codexStep, handleOutputItemAdded, ht, emitChunk, announceSlots,
            markCRole, emptyCDelta]
      · left
        refine ⟨?_, ?_⟩ <;>
          simp [codexStep, handleOutputItemAdded, ht, announceSlots]
  | argumentsDelta d => left; exact ⟨rfl, rfl⟩
  | argumentsDone args =>
    by_cases hr : st.hasReceivedArgumentsDelta
    · left
      refine ⟨?_, ?_⟩ <;>
        simp [codexStep, handleArgumentsDone, hr, announceSlots]
    · left
      refine ⟨?_, ?_⟩ <;>
        simp [codexStep, handleArgumentsDone, hr, emitChunk, announceSlots,
          markCRole, emptyCDelta]
  | outputItemDone item =>
    rcases item with _ | it
    · left; exact ⟨rfl, rfl⟩
    · by_cases ht : it.type = str "function_call"
      · by_cases ha : st.hasToolCallAnnounced
        · left
          refine ⟨?_, ?_⟩ <;>
            simp [codexStep, handleOutputItemDone, ht, ha, announceSlots]
        · right
          refine ⟨?_, ?_⟩ <;>
            simp [codexStep, handleOutputItemDone, ht, ha, emitChunk,
              announceSlots, markCRole, emptyCDelta]
      · left
        refine ⟨?_, ?_⟩ <;>
          simp [codexStep, handleOutputItemDone, ht, announceSlots]
  | completed resp => left; exact ⟨rfl, rfl⟩
  | failed resp =>
    left
    refine ⟨?_, rfl⟩
    show announceSlots (handleResponseError st resp).2 = []
    unfold handleResponseError
    split_ifs <;> simp [announceSlots, emptyCDelta]
  | incomplete resp =>
    left
    refine ⟨?_, rfl⟩
    show announceSlots (handleResponseError st resp).2 = []
    unfold handleResponseError
    split_ifs <;> simp [announceSlots, emptyCDelta]
  | errorEvent m c => left; exact ⟨rfl, rfl⟩
  | other => left; exact ⟨rfl, rfl⟩

/-- Over any event suffix, the announced slots are consecutive from one
past the current counter. -/
theorem runCodex_slots (restore : List Char → List Char) (evs : List CodexEvent) :
    ∀ st : CState,
      announceSlots (runCodex restore st evs).2 =
        (List.range (announceSlots (runCodex restore st evs).2).length).map
          (fun j : Nat => st.functionCallIndex + 1 + (j : Int)) := by
  induction evs with
  | nil => intro st; rfl
  | cons e es ih =>
    intro st
    simp only [runCodex, announceSlots_append]
    rcases codexStep_slots restore st e with ⟨h1, h2⟩ | ⟨h1, h2⟩
    · rw [h1, List.nil_append]
      have hrec := ih (codexStep restore st e).1
      rw [h2] at hrec
      exact hrec
    · rw [h1]
      have hrec := ih (codexStep restore st e).1
      rw [h2] at hrec
      rw [hrec, List.singleton_append, List.length_cons, List.length_map,
        List.length_range]
      exact consecutive_cons (st.functionCallIndex + 1) _

/-- C7: across any event stream processed from a fresh state, the
announced function-call slots are exactly `0, 1, 2, …` in emission
order — strictly increasing, first-encounter order, with the counter
starting at `-1` and incremented on `output_item.added` or on the
`output_item.done` fallback (the events carry no backend index the code
would consult). -/
theorem c7_slots_first_encounter_order (restore : List Char → List Char)
    (evs : List CodexEvent) :
    announceSlots (runCodex restore freshCState evs).2 =
      (List.range (announceSlots (runCodex restore freshCState evs).2).length).map
        (fun j : Nat => (j : Int)) := by
  have h := runCodex_slots restore evs freshCState
  rw [h]
  simp only [List.length_map, List.length_range]
  apply List.map_congr_left
  intro j hj
  show freshCState.functionCallIndex + 1 + (j : Int) = (j : Int)
  simp [freshCState]

end Relay

namespace Relay

/-! ### C8: the role field appears at most once -/

/-- `roleFlips` over a constant flag is zero. -/
theorem roleFlips_self (a : Bool) : roleFlips a a = 0 := by
  cases a <;> rfl

/-- `roleFlips` never exceeds one. -/
theorem roleFlips_le_one (a b : Bool) : roleFlips a b ≤ 1 := by
  cases a <;> cases b <;> simp [roleFlips]

/-- Flip counts compose along a monotone flag. -/
theorem roleFlips_trans (a b c : Bool) (h1 : a = true → b = true)
    (h2 : b = true → c = true) :
    roleFlips a b + roleFlips b c = roleFlips a c := by
  cases a <;> cases b <;> cases c <;> simp_all [roleFlips]

/-- `roleCount` distributes over concatenation. -/
theorem roleCount_append (a b : List GChunk) :
    roleCount (a ++ b) = roleCount a + roleCount b := by
  simp [roleCount, List.filter_append]

/-- `cRoleCount` distributes over concatenation. -/
theorem cRoleCount_append (a b : List CodexOut) :
    cRoleCount (a ++ b) = cRoleCount a + cRoleCount b := by
  simp [cRoleCount, List.filter_append]

/-- One Gemini part emits the role exactly when the flag flips, and the
flag is monotone. -/
theorem convertPart_role (st : GState) (cidx : Nat) (p : GPart) :
    roleCount (convertPart st cidx p).2 =
      roleFlips st.roleSent (convertPart st cidx p).1.roleSent ∧
    (st.roleSent = true → (convertPart st cidx p).1.roleSent = true) := by
  unfold convertPart
  repeat' split
  all_goals cases hrs : st.roleSent <;>
    simp_all [roleCount, roleFlips, markRole, List.filter]

/-- The Gemini part loop emits the role exactly when the flag flips. -/
theorem convertParts_role (cidx : Nat) (ps : List GPart) : ∀ st : GState,
    roleCount (convertParts st cidx ps).2 =
      roleFlips st.roleSent (convertParts st cidx ps).1.roleSent ∧
    (st.roleSent = true → (convertParts st cidx ps).1.roleSent = true) := by
  induction ps with
  | nil => intro st; exact ⟨(roleFlips_self _).symm, fun h => h⟩
  | cons p ps ih =>
    intro st
    obtain ⟨hc1, hm1⟩ := convertPart_role st cidx p
    obtain ⟨hc2, hm2⟩ := ih (convertPart st cidx p).1
    constructor
    · simp only [convertParts, roleCount_append, hc1, hc2]
      exact roleFlips_trans _ _ _ hm1 hm2
    · intro h
      exact hm2 (hm1 h)

/-- A chunk without the role mark contributes nothing to `roleCount`. -/
theorem roleCount_singleton_false (ch : GChunk) (h : ch.roleMark = false) :
    roleCount [ch] = 0 := by
  simp [roleCount, List.filter, h]

/-- One Gemini candidate emits the role exactly when the flag flips
(the terminal chunk never carries the role). -/
theorem convertCandidate_role (st : GState) (u : Option GUsage) (i : Nat)
    (c : GCandidate) :
    roleCount (convertCandidate st u i c).2 =
      roleFlips st.roleSent (convertCandidate st u i c).1.roleSent ∧
    (st.roleSent = true → (convertCandidate st u i c).1.roleSent = true) := by
  obtain ⟨hc, hm⟩ := convertParts_role (c.index.getD i) c.parts st
  unfold convertCandidate
  rcases hfr : c.finishReason with _ | fr
  · exact ⟨hc, hm⟩
  · by_cases he : fr.isEmpty
    · dsimp only
      rw [if_pos he]
      exact ⟨hc, hm⟩
    · dsimp only
      rw [if_neg he]
      refine ⟨?_, hm⟩
      rw [roleCount_append, hc, roleCount_singleton_false _ rfl]
      rfl

end Relay

namespace Relay

/-- The Gemini candidate loop emits the role exactly when the flag
flips. -/
theorem convertCandidates_role (u : Option GUsage) (cs : List GCandidate) :
    ∀ (st : GState) (i : Nat),
      roleCount (convertCandidates u st i cs).2 =
        roleFlips st.roleSent (convertCandidates u st i cs).1.roleSent ∧
      (st.roleSent = true → (convertCandidates u st i cs).1.roleSent = true) := by
  induction cs with
  | nil => intro st i; exact ⟨(roleFlips_self _).symm, fun h => h⟩
  | cons c cs ih =>
    intro st i
    obtain ⟨hc1, hm1⟩ := convertCandidate_role st u i c
    obtain ⟨hc2, hm2⟩ := ih (convertCandidate st u i c).1 (i + 1)
    constructor
    · simp only [convertCandidates, roleCount_append, hc1, hc2]
      exact roleFlips_trans _ _ _ hm1 hm2
    · intro h
      exact hm2 (hm1 h)

/-- One Gemini frame emits the role exactly when the flag flips (the
usage-only terminal chunk never carries the role). -/
theorem convertGeminiChunk_role (d : GFrame) (st : GState) :
    roleCount (convertGeminiChunkToOpenAI d st).2 =
      roleFlips st.roleSent (convertGeminiChunkToOpenAI d st).1.roleSent ∧
    (st.roleSent = true → (convertGeminiChunkToOpenAI d st).1.roleSent = true) := by
  unfold convertGeminiChunkToOpenAI
  by_cases hg : d.candidates.isEmpty && d.usageMetadata.isSome
  · rw [if_pos hg]
    exact ⟨by rw [roleCount_singleton_false _ rfl, roleFlips_self], fun h => h⟩
  · rw [if_neg hg]
    exact convertCandidates_role d.usageMetadata d.candidates st 0

/-- The Gemini frame loop emits the role exactly when the flag flips. -/
theorem processGFrames_role (fs : List GFrame) : ∀ st : GState,
    roleCount (processGFrames st fs).2 =
      roleFlips st.roleSent (processGFrames st fs).1.roleSent ∧
    (st.roleSent = true → (processGFrames st fs).1.roleSent = true) := by
  induction fs with
  | nil => intro st; exact ⟨(roleFlips_self _).symm, fun h => h⟩
  | cons f fs ih =>
    intro st
    obtain ⟨hc1, hm1⟩ := convertGeminiChunk_role f st
    obtain ⟨hc2, hm2⟩ := ih (convertGeminiChunkToOpenAI f st).1
    constructor
    · simp only [processGFrames, roleCount_append, hc1, hc2]
      exact roleFlips_trans _ _ _ hm1 hm2
    · intro h
      exact hm2 (hm1 h)

/-- `_handleResponseCreated` emits nothing and leaves the role flag
unchanged. -/
theorem handleResponseCreated_spec (st : CState) (resp : Option CodexResp) :
    (handleResponseCreated st resp).2 = [] ∧
    (handleResponseCreated st resp).1.roleSent = st.roleSent := by
  unfold handleResponseCreated
  rcases resp with _ | r
  · exact ⟨rfl, rfl⟩
  · dsimp only [Option.getD]
    rcases r.created_at with _ | v
    · exact ⟨rfl, rfl⟩
    · by_cases hv : v = 0 <;> simp [hv]

/-- One Codex event emits the role exactly when the flag flips, and the
flag is monotone. -/
theorem codexStep_role (restore : List Char → List Char) (st : CState) (e : CodexEvent) :
    cRoleCount (codexStep restore st e).2 =
      roleFlips st.roleSent (codexStep restore st e).1.roleSent ∧
    (st.roleSent = true → (codexStep restore st e).1.roleSent = true) := by
  cases e with
  | created resp =>
    obtain ⟨h2, h1⟩ := handleResponseCreated_spec st resp
    constructor
    · show cRoleCount (handleResponseCreated st resp).2 =
        roleFlips st.roleSent (handleResponseCreated st resp).1.roleSent
      rw [h1, h2, roleFlips_self]
      rfl
    · intro h
      show (handleResponseCreated st resp).1.roleSent = true
      rw [h1]
      exact h
  | reasoningSummaryDelta d =>
    cases hrs : st.roleSent <;>
      simp [codexStep, emitChunk, markCRole, cRoleCount, roleFlips,
        List.filter, hrs]
  | reasoningSummaryDone =>
    cases hrs : st.roleSent <;> simp [codexStep, cRoleCount, roleFlips, hrs]
  | outputTextDelta d =>
    cases hrs : st.roleSent <;>
      simp [codexStep, emitChunk, markCRole, cRoleCount, roleFlips,
        List.filter, hrs]
  | outputItemAdded item =>
    rcases item with _ | it
    · cases hrs : st.roleSent <;>
        simp [codexStep, handleOutputItemAdded, cRoleCount, roleFlips, hrs]
    · by_cases ht : it.type = str "function_call" <;>
        cases hrs : st.roleSent <;>
        simp [codexStep, handleOutputItemAdded, ht, emitChunk, markCRole,
          cRoleCount, roleFlips, List.filter, hrs]
  | argumentsDelta d =>
    cases hrs : st.roleSent <;>
      simp [codexStep, handleArgumentsDelta, emitChunk, markCRole, cRoleCount,
        roleFlips, List.filter, hrs]
  | argumentsDone args =>
    by_cases hr : st.hasReceivedArgumentsDelta <;>
      cases hrs : st.roleSent <;>
      simp [codexStep, handleArgumentsDone, hr, emitChunk, markCRole, cRoleCount,
        roleFlips, List.filter, hrs]
  | outputItemDone item =>
    rcases item with _ | it
    · cases hrs : st.roleSent <;>
        simp [codexStep, handleOutputItemDone, cRoleCount, roleFlips, hrs]
    · by_cases ht : it.type = str "function_call" <;>
        by_cases ha : st.hasToolCallAnnounced <;>
        cases hrs : st.roleSent <;>
        simp [codexStep, handleOutputItemDone, ht, ha, emitChunk, markCRole,
          cRoleCount, roleFlips, List.filter, hrs]
  | completed resp =>
    cases hrs : st.roleSent <;>
      simp [codexStep, handleResponseCompleted, emptyCDelta, cRoleCount,
        roleFlips, List.filter, hrs]
  | failed resp =>
    have hst : (codexStep restore st (CodexEvent.failed resp)).1 = st := rfl
    refine ⟨?_, fun h => by rw [hst]; exact h⟩
    rw [hst, roleFlips_self]
    show cRoleCount (handleResponseError st resp).2 = 0
    unfold handleResponseError
    split_ifs <;> simp [emptyCDelta, cRoleCount, List.filter]
  | incomplete resp =>
    have hst : (codexStep restore st (CodexEvent.incomplete resp)).1 = st := rfl
    refine ⟨?_, fun h => by rw [hst]; exact h⟩
    rw [hst, roleFlips_self]
    show cRoleCount (handleResponseError st resp).2 = 0
    unfold handleResponseError
    split_ifs <;> simp [emptyCDelta, cRoleCount, List.filter]
  | errorEvent m c =>
    cases hrs : st.roleSent <;>
      simp [codexStep, handleStreamError, cRoleCount, roleFlips, List.filter, hrs]
  | other =>
    cases hrs : st.roleSent <;> simp [codexStep, cRoleCount, roleFlips, hrs]

/-- The Codex event loop emits the role exactly when the flag flips. -/
theorem runCodex_role (restore : List Char → List Char) (evs : List CodexEvent) :
    ∀ st : CState,
      cRoleCount (runCodex restore st evs).2 =
        roleFlips st.roleSent (runCodex restore st evs).1.roleSent ∧
      (st.roleSent = true → (runCodex restore st evs).1.roleSent = true) := by
  induction evs with
  | nil => intro st; exact ⟨(roleFlips_self _).symm, fun h => h⟩
  | cons e es ih =>
    intro st
    obtain ⟨hc1, hm1⟩ := codexStep_role restore st e
    obtain ⟨hc2, hm2⟩ := ih (codexStep restore st e).1
    constructor
    · simp only [runCodex, cRoleCount_append, hc1, hc2]
      exact roleFlips_trans _ _ _ hm1 hm2
    · intro h
      exact hm2 (hm1 h)

/-- C8: over any full stream processed from a fresh state, the role
field appears in at most one emitted delta — in the Gemini-class
converter and in the Responses-style converter alike. -/
theorem c8_role_at_most_once (frames : List GFrame)
    (restore : List Char → List Char) (evs : List CodexEvent) :
    roleCount (processGFrames freshGState frames).2 ≤ 1 ∧
    cRoleCount (runCodex restore freshCState evs).2 ≤ 1 := by
  constructor
  · rw [(processGFrames_role frames freshGState).1]
    exact roleFlips_le_one _ _
  · rw [(runCodex_role restore evs freshCState).1]
    exact roleFlips_le_one _ _

end Relay

namespace Relay

/-- C5 counterexample: on the Gemini non-streaming branch a conversion
exception is not caught — the patched `res.json` propagates it instead
of returning the original payload (here on a payload that passes the
`data.candidates` check but makes the converter throw). -/
theorem c5_counterexample :
    geminiResJson 200 (fun _ => true)
        (fun _ : Nat => (Except.error (str "TypeError") : Except (List Char) Nat)) 0 =
      ResJsonOut.raised (str "TypeError") ∧
    geminiResJson 200 (fun _ => true)
        (fun _ : Nat => (Except.error (str "TypeError") : Except (List Char) Nat)) 0 ≠
      ResJsonOut.passthrough 0 :=
  ⟨rfl, by decide⟩

/-- C5 (amended): a conversion exception during non-streaming response
handling is caught only on the Codex/Responses branch, where the
original payload is returned unchanged; on the Gemini branch the
exception propagates out of the patched `res.json`. -/
theorem c5_amended {β : Type} (statusCode : Nat) (shaped : Nat → Bool)
    (convert : Nat → Except (List Char) β) (d : Nat) (e : List Char)
    (h : convert d = Except.error e) :
    openaiResJson statusCode shaped convert d = ResJsonOut.passthrough d ∧
    (statusCode < 400 → ∀ hasCand : Nat → Bool, hasCand d = true →
      geminiResJson statusCode hasCand convert d = ResJsonOut.raised e) := by
  constructor
  · unfold openaiResJson
    split_ifs with h1 h2
    · rfl
    · rw [h]
    · rfl
  · intro hsc hasCand hc
    unfold geminiResJson
    rw [if_neg (by omega), if_pos hc, h]

/-- C5 witness: concrete erroring conversion exercised on both
branches. -/
theorem c5_witness :
    (fun _ : Nat => (Except.error (str "boom") : Except (List Char) Nat)) 0 =
      Except.error (str "boom") ∧
    openaiResJson 200 (fun _ => true)
        (fun _ : Nat => (Except.error (str "boom") : Except (List Char) Nat)) 0 =
      ResJsonOut.passthrough 0 ∧
    geminiResJson 200 (fun _ => true)
        (fun _ : Nat => (Except.error (str "boom") : Except (List Char) Nat)) 0 =
      ResJsonOut.raised (str "boom") := by
  refine ⟨rfl, ?_, ?_⟩
  · exact (c5_amended 200 (fun _ => true) _ 0 (str "boom") rfl).1
  · exact (c5_amended 200 (fun _ => true) _ 0 (str "boom") rfl).2 (by omega)
      (fun _ => true) rfl

end Relay

namespace Relay

/-! ### C2/C3: the tool-name table -/

/-- A successful lookup's pair is a member of the list. -/
theorem lookup_mem : ∀ (l : List (List Char × List Char)) (k v : List Char),
    l.lookup k = some v → (k, v) ∈ l
  | [], _, _, h => by simp [List.lookup] at h
  | (a, b) :: ps, k, v, h => by
    by_cases hk : (k == a) = true
    · simp only [List.lookup, hk] at h
      have h2 : k = a := eq_of_beq hk
      have h1 : b = v := Option.some.inj h
      subst h2
      subst h1
      exact List.mem_cons_self _ _
    · have hk2 : (k == a) = false := by simpa using hk
      simp only [List.lookup, hk2] at h
      exact List.mem_cons_of_mem _ (lookup_mem ps k v h)

/-- With duplicate-free keys, lookup finds any member pair. -/
theorem lookup_of_mem_nodup : ∀ (l : List (List Char × List Char)) (k v : List Char),
    (l.map Prod.fst).Nodup → (k, v) ∈ l → l.lookup k = some v
  | [], _, _, _, h => by simp at h
  | (a, b) :: ps, k, v, hn, h => by
    simp only [List.map_cons, List.nodup_cons] at hn
    rcases List.mem_cons.mp h with heq | htl
    · cases heq
      simp [List.lookup]
    · have hne : (k == a) = false := by
        simp only [beq_eq_false_iff_ne, ne_eq]
        intro he
        subst he
        exact hn.1 (List.mem_map_of_mem Prod.fst htl)
      simp only [List.lookup, hne]
      exact lookup_of_mem_nodup ps k v hn.2 htl

/-- Lookup misses when no pair carries the key. -/
theorem lookup_none : ∀ (l : List (List Char × List Char)) (k : List Char),
    (∀ q ∈ l, q.1 ≠ k) → l.lookup k = none
  | [], _, _ => rfl
  | (a, b) :: ps, k, h => by
    have hk : (k == a) = false := by
      simp only [beq_eq_false_iff_ne, ne_eq]
      intro he
      exact h (a, b) (List.mem_cons_self _ _) he.symm
    simp only [List.lookup, hk]
    exact lookup_none ps k (fun q hq => h q (List.mem_cons_of_mem _ hq))

/-- Every base candidate respects the length limit. -/
theorem baseCandidate_length (n : List Char) : (baseCandidate n).length ≤ nameLimit := by
  unfold baseCandidate
  split_ifs with h1 h2
  · exact h1
  · rcases lastUU n with _ | p
    · simp [List.length_take]
    · dsimp only
      split_ifs with hp hc
      · simp [List.length_take]
      · omega
      · simp [List.length_take]
  · simp [List.length_take]

/-- `makeUnique` never returns a used name. -/
theorem makeUnique_not_mem (used : List (List Char)) (cand : List Char) :
    makeUnique used cand ∉ used := by
  unfold makeUnique
  split_ifs with h
  · exact Nat.find_spec (exists_tryCand_unused used cand)
  · exact h

/-- The produced short names are pairwise distinct and avoid the
initial used set. -/
theorem aux_snd_nodup : ∀ (ns : List (List Char)) (used : List (List Char)),
    ((buildShortNameMapAux used ns).map Prod.snd).Nodup ∧
      ∀ p ∈ buildShortNameMapAux used ns, p.2 ∉ used
  | [], used => ⟨List.nodup_nil, by simp [buildShortNameMapAux]⟩
  | n :: ns, used => by
    obtain ⟨h1, h2⟩ := aux_snd_nodup ns (makeUnique used (baseCandidate n) :: used)
    refine ⟨?_, ?_⟩
    · simp only [buildShortNameMapAux, List.map_cons, List.nodup_cons]
      refine ⟨?_, h1⟩
      intro hmem
      simp only [List.mem_map] at hmem
      obtain ⟨p, hp, hval⟩ := hmem
      exact h2 p hp (by simp [hval])
    · intro p hp
      simp only [buildShortNameMapAux, List.mem_cons] at hp
      rcases hp with rfl | hp
      · exact makeUnique_not_mem used _
      · intro hmem
        exact h2 p hp (by simp [hmem])

/-- The table's keys are exactly the input names, in order. -/
theorem aux_keys : ∀ (ns used : List (List Char)),
    (buildShortNameMapAux used ns).map Prod.fst = ns
  | [], _ => rfl
  | n :: ns, used => by
    show n :: (buildShortNameMapAux _ ns).map Prod.fst = n :: ns
    rw [aux_keys ns]

/-- Digit-count bound: `i < 10^k` has at most `k` digits. -/
theorem repNat_length_le (i k : Nat) (h : i < 10 ^ k) : (repNat i).length ≤ k := by
  rcases Nat.eq_zero_or_pos i with rfl | hi
  · simp [repNat]
  · simp only [repNat, List.length_reverse, List.length_map]
    rw [Nat.digits_len 10 i (by norm_num) (by omega)]
    have := Nat.log_lt_of_lt_pow (x := k) (b := 10) (by omega : i ≠ 0) h
    omega

/-- Any candidate with a suffix index below `10^10` respects the
length limit, provided the base does. -/
theorem tryCand_length (base : List Char) (i : Nat) (hb : base.length ≤ nameLimit)
    (hi : i < 10 ^ 10) : (tryCand base i).length ≤ nameLimit := by
  have hd : (repNat i).length ≤ 10 := repNat_length_le i 10 hi
  unfold tryCand
  simp only [List.length_append, List.length_cons, nameLimit] at *
  split_ifs with hcut
  · unfold jsSliceTo
    split_ifs with hpos
    · simp only [List.length_take]
      omega
    · simp only [List.length_take]
      omega
  · omega

/-- `makeUnique` respects the length limit when the used set is not
astronomically large. -/
theorem makeUnique_length (used : List (List Char)) (cand : List Char)
    (huse : used.length < 1000000000) (hb : cand.length ≤ nameLimit) :
    (makeUnique used cand).length ≤ nameLimit := by
  have e9 : (10 : Nat) ^ 9 = 1000000000 := by norm_num
  unfold makeUnique
  split_ifs with h
  · obtain ⟨i, hi1, hi2, hi3⟩ :=
      exists_tryCand_unused_in_class used cand 9 (by omega)
    have h1 : 1 ≤ i := le_trans (Nat.one_le_pow _ _ (by norm_num)) hi1
    have hfind : Nat.find (exists_tryCand_unused used cand) ≤ i - 1 := by
      apply Nat.find_le
      rwa [Nat.sub_add_cancel h1]
    apply tryCand_length cand _ hb
    have e10 : (10 : Nat) ^ 10 = 10000000000 := by norm_num
    omega
  · exact hb

/-- All short names in the table respect the length limit when the
input list is not astronomically large. -/
theorem aux_length : ∀ (ns used : List (List Char)),
    used.length + ns.length ≤ 1000000000 →
    ∀ p ∈ buildShortNameMapAux used ns, p.2.length ≤ nameLimit
  | [], _, _ => by simp [buildShortNameMapAux]
  | n :: ns, used, h => by
    intro p hp
    simp only [buildShortNameMapAux, List.mem_cons] at hp
    rcases hp with rfl | hp
    · exact makeUnique_length used _ (by simp at h; omega) (baseCandidate_length n)
    · exact aux_length ns (makeUnique used (baseCandidate n) :: used)
        (by simp at h ⊢; omega) p hp

end Relay

namespace Relay

/-- C2: for a duplicate-free (and not astronomically large) list of
original tool names, `_buildShortNameMap` is injective — distinct
originals never share a short name — and every short name is at most 64
characters long. -/
theorem c2_short_name_map (names : List (List Char)) (h1 : names.Nodup)
    (h2 : names.length ≤ 1000000000) :
    (∀ p ∈ buildShortNameMap names, ∀ q ∈ buildShortNameMap names,
      p.1 ≠ q.1 → p.2 ≠ q.2) ∧
    ∀ p ∈ buildShortNameMap names, p.2.length ≤ 64 := by
  constructor
  · intro p hp q hq hne hval
    have hnd := (aux_snd_nodup names []).1
    have := List.inj_on_of_nodup_map hnd hp hq hval
    exact hne (by rw [this])
  · intro p hp
    have := aux_length names [] (by simpa using h2) p hp
    simpa [nameLimit] using this

/-- C2 witness: two long names colliding after truncation receive
distinct suffixed short names within the limit. -/
theorem c2_witness :
    (List.replicate 70 'a' :: [List.replicate 70 'a' ++ [Char.ofNat 98]]).Nodup ∧
    ((∀ p ∈ buildShortNameMap
        (List.replicate 70 'a' :: [List.replicate 70 'a' ++ [Char.ofNat 98]]),
      ∀ q ∈ buildShortNameMap
        (List.replicate 70 'a' :: [List.replicate 70 'a' ++ [Char.ofNat 98]]),
        p.1 ≠ q.1 → p.2 ≠ q.2) ∧
     ∀ p ∈ buildShortNameMap
        (List.replicate 70 'a' :: [List.replicate 70 'a' ++ [Char.ofNat 98]]),
        p.2.length ≤ 64) :=
  ⟨by decide, c2_short_name_map _ (by decide) (by decide)⟩

/-- A nonempty name's base candidate is nonempty. -/
theorem baseCandidate_ne_nil (n : List Char) (h : n ≠ []) : baseCandidate n ≠ [] := by
  unfold baseCandidate
  split_ifs with h1 h2
  · exact h
  · rcases lastUU n with _ | p
    · simp [h, nameLimit]
    · dsimp only
      split_ifs with hp hc
      · simp [mcpMark, str, nameLimit]
      · simp [mcpMark, str]
      · simp [h, nameLimit]
  · simp [h, nameLimit]

/-- Suffixed candidates are never empty. -/
theorem tryCand_ne_nil (base : List Char) (i : Nat) : tryCand base i ≠ [] := by
  unfold tryCand
  simp

/-- `makeUnique` of a nonempty candidate is nonempty. -/
theorem makeUnique_ne_nil (used : List (List Char)) (cand : List Char)
    (h : cand ≠ []) : makeUnique used cand ≠ [] := by
  unfold makeUnique
  split_ifs with hm
  · exact tryCand_ne_nil _ _
  · exact h

/-- Only the empty original maps to the empty short name (when the
empty string is not among the already-used names). -/
theorem aux_empty_key : ∀ (ns used : List (List Char)), ns.Nodup →
    ([] ∈ used → [] ∉ ns) →
    ∀ p ∈ buildShortNameMapAux used ns, p.1 = [] → p.2 = []
  | [], _, _, _ => by simp [buildShortNameMapAux]
  | n :: ns, used, hnd, hinv => by
    intro p hp hk
    simp only [buildShortNameMapAux, List.mem_cons] at hp
    rcases hp with rfl | hp
    · simp only at hk
      subst hk
      have hnu : [] ∉ used := fun hu => (hinv hu) (List.mem_cons_self _ _)
      show makeUnique used (baseCandidate []) = []
      have hb : baseCandidate [] = [] := rfl
      rw [hb]
      unfold makeUnique
      rw [if_neg hnu]
    · refine aux_empty_key ns (makeUnique used (baseCandidate n) :: used)
        hnd.of_cons ?_ p hp hk
      intro hu
      rcases List.mem_cons.mp hu with he | hu2
      · have hne : n = [] := by
          by_contra hn
          exact makeUnique_ne_nil used _ (baseCandidate_ne_nil n hn) he.symm
        subst hne
        exact (List.nodup_cons.mp hnd).1
      · intro hns
        exact (hinv hu2) (List.mem_cons_of_mem _ hns)

/-- The reverse map's keys form a sublist of the table's values. -/
theorem reverse_keys_sublist : ∀ m : List (List Char × List Char),
    List.Sublist ((reverseMapOf m).map Prod.fst) (m.map Prod.snd)
  | [] => List.Sublist.refl _
  | r :: m => by
    show List.Sublist ((List.filterMap _ (r :: m)).map Prod.fst)
      (r.2 :: m.map Prod.snd)
    rw [List.filterMap_cons]
    by_cases hrr : r.1 = r.2
    · rw [if_pos hrr]
      exact List.Sublist.cons _ (reverse_keys_sublist m)
    · rw [if_neg hrr]
      simp only [List.map_cons]
      exact List.Sublist.cons₂ _ (reverse_keys_sublist m)

/-- C3: restoring the forward-mapped short name of any original name in
the table through the reverse map returns the original (round-trip
law); names mapped to themselves have no reverse entry and fall back to
the identity. -/
theorem c3_roundtrip (names : List (List Char)) (h : names.Nodup) :
    ∀ n ∈ names,
      restoreToolName (reverseMapOf (buildShortNameMap names))
        (forwardShortName names n) = n := by
  intro n hn
  have hkeys : (buildShortNameMap names).map Prod.fst = names := aux_keys names []
  have hknd : ((buildShortNameMap names).map Prod.fst).Nodup := by
    rw [hkeys]; exact h
  have hvnd := (aux_snd_nodup names []).1
  have hmemk : n ∈ (buildShortNameMap names).map Prod.fst := by
    rw [hkeys]; exact hn
  obtain ⟨p, hp, hp1⟩ := List.mem_map.mp hmemk
  obtain ⟨k, s⟩ := p
  simp only at hp1
  subst hp1
  have hlook : (buildShortNameMap names).lookup k = some s :=
    lookup_of_mem_nodup _ _ _ hknd hp
  have hfwd : forwardShortName names k = s := by
    rw [forwardShortName, hlook]; rfl
  rw [hfwd]
  by_cases hns : k = s
  · subst hns
    have hnone : (reverseMapOf (buildShortNameMap names)).lookup k = none := by
      apply lookup_none
      intro q hq hq1
      simp only [reverseMapOf, List.mem_filterMap] at hq
      obtain ⟨r, hr, hrq⟩ := hq
      by_cases hrr : r.1 = r.2
      · simp [hrr] at hrq
      · rw [if_neg hrr] at hrq
        have hq2 : q = (r.2, r.1) := (Option.some.inj hrq).symm
        have hr2 : r.2 = k := by rw [hq2] at hq1; exact hq1
        have heq : r = (k, k) :=
          List.inj_on_of_nodup_map hvnd hr hp (by simp [hr2])
        rw [heq] at hrr
        exact hrr rfl
    simp only [restoreToolName, hnone]
  · have hrmem : (s, k) ∈ reverseMapOf (buildShortNameMap names) := by
      simp only [reverseMapOf, List.mem_filterMap]
      exact ⟨(k, s), hp, by rw [if_neg (by simpa using hns)]⟩
    have hrknd : ((reverseMapOf (buildShortNameMap names)).map Prod.fst).Nodup :=
      hvnd.sublist (reverse_keys_sublist _)
    have hlook2 := lookup_of_mem_nodup _ _ _ hrknd hrmem
    have hne : k ≠ [] := by
      intro h0
      subst h0
      have hs := aux_empty_key names [] h (by simp) ([], s) hp rfl
      simp only at hs
      exact hns hs.symm
    simp only [restoreToolName, hlook2]
    rw [if_neg (by simpa using hne)]

/-- C3 witness: round-trip at a concrete two-name table. -/
theorem c3_witness :
    [str "alpha", str "beta"].Nodup ∧ str "alpha" ∈ [str "alpha", str "beta"] ∧
    restoreToolName (reverseMapOf (buildShortNameMap [str "alpha", str "beta"]))
      (forwardShortName [str "alpha", str "beta"] (str "alpha")) = str "alpha" :=
  ⟨by decide, by decide,
   c3_roundtrip [str "alpha", str "beta"] (by decide) (str "alpha") (by decide)⟩

end Relay

namespace Relay

/-! ### C1 proofs: separator splitting -/

/-- A found separator accounts for two characters. -/
theorem splitNN_length : ∀ (buf e r : List Char),
    splitNN buf = some (e, r) → buf.length = e.length + r.length + 2
  | [], _, _, h => by simp [splitNN] at h
  | [c], _, _, h => Option.noConfusion h
  | c :: d :: rest, e, r, h => by
    rw [splitNN] at h
    split_ifs at h with hnn
    · obtain ⟨rfl, rfl⟩ : [] = e ∧ rest = r := by
        simpa using h
      simp
    · rcases hsp : splitNN (d :: rest) with _ | ⟨e', r'⟩
      · rw [hsp] at h
        simp at h
      · rw [hsp] at h
        simp only [Option.map_some'] at h
        obtain ⟨rfl, rfl⟩ : c :: e' = e ∧ r' = r := by
          simpa using h
        have := splitNN_length (d :: rest) e' r' hsp
        simp only [List.length_cons] at this ⊢
        omega

/-- Appending to the buffer does not disturb an already-found
separator. -/
theorem splitNN_append : ∀ (buf e r w : List Char),
    splitNN buf = some (e, r) → splitNN (buf ++ w) = some (e, r ++ w)
  | [], _, _, _, h => by simp [splitNN] at h
  | [c], _, _, _, h => Option.noConfusion h
  | c :: d :: rest, e, r, w, h => by
    rw [splitNN] at h
    show splitNN (c :: d :: (rest ++ w)) = _
    rw [splitNN]
    split_ifs at h ⊢ with hnn
    · obtain ⟨rfl, rfl⟩ : [] = e ∧ rest = r := by simpa using h
      rfl
    · rcases hsp : splitNN (d :: rest) with _ | ⟨e', r'⟩
      · rw [hsp] at h
        simp at h
      · rw [hsp] at h
        simp only [Option.map_some'] at h
        obtain ⟨rfl, rfl⟩ : c :: e' = e ∧ r' = r := by simpa using h
        have := splitNN_append (d :: rest) e' r' w hsp
        rw [show d :: rest ++ w = d :: (rest ++ w) from rfl] at this
        rw [this]
        rfl

/-- A found separator decomposes the buffer. -/
theorem splitNN_decomp : ∀ (buf e r : List Char),
    splitNN buf = some (e, r) → buf = e ++ '\n' :: '\n' :: r
  | [], _, _, h => by simp [splitNN] at h
  | [c], _, _, h => Option.noConfusion h
  | c :: d :: rest, e, r, h => by
    rw [splitNN] at h
    split_ifs at h with hnn
    · obtain ⟨rfl, rfl⟩ : [] = e ∧ rest = r := by simpa using h
      obtain ⟨rfl, rfl⟩ := hnn
      rfl
    · rcases hsp : splitNN (d :: rest) with _ | ⟨e', r'⟩
      · rw [hsp] at h
        simp at h
      · rw [hsp] at h
        simp only [Option.map_some'] at h
        obtain ⟨rfl, rfl⟩ : c :: e' = e ∧ r' = r := by simpa using h
        have := splitNN_decomp (d :: rest) e' r' hsp
        rw [List.cons_append, ← this]

/-- Whether a string ends in a newline. -/
def endsLF : List Char → Bool
  | [] => false
  | [c] => c = '\n'
  | _ :: c :: rest => endsLF (c :: rest)

/-- Appending the separator to a separator-free buffer: the buffer
becomes the final event, except that a trailing newline merges with the
separator. -/
theorem splitNN_none_append_sep : ∀ (buf : List Char), splitNN buf = none →
    splitNN (buf ++ ['\n', '\n']) =
      some (if endsLF buf then (buf.dropLast, ['\n']) else (buf, []))
  | [], _ => by simp [splitNN, endsLF]
  | [c], h => by
    by_cases hc : c = '\n'
    · subst hc
      simp [splitNN, endsLF]
    · show splitNN (c :: '\n' :: ['\n']) = _
      rw [splitNN]
      rw [if_neg (by simp [hc])]
      simp [splitNN, endsLF, hc]
  | c :: d :: rest, h => by
    rw [splitNN] at h
    split_ifs at h with hnn
    rcases hsp : splitNN (d :: rest) with _ | q
    · have := splitNN_none_append_sep (d :: rest) hsp
      show splitNN (c :: (d :: rest ++ ['\n', '\n'])) = _
      rw [show (d :: rest) ++ ['\n', '\n'] = d :: (rest ++ ['\n', '\n']) from rfl] at this
      rw [show c :: (d :: rest ++ ['\n', '\n']) = c :: d :: (rest ++ ['\n', '\n']) from rfl]
      rw [splitNN, if_neg hnn, this]
      show _ = some (if endsLF (c :: d :: rest) then _ else _)
      rw [show endsLF (c :: d :: rest) = endsLF (d :: rest) from rfl]
      by_cases he : endsLF (d :: rest)
      · rw [if_pos he, if_pos he]
        simp only [Option.map_some']
        rfl
      · rw [if_neg he, if_neg he]
        simp only [Option.map_some']
    · rw [hsp] at h
      simp at h

end Relay

namespace Relay

/-- Fuel above the buffer length is irrelevant to extraction. -/
theorem extractEvents_congr : ∀ (n₁ : Nat) (buf : List Char) (n₂ : Nat),
    buf.length ≤ n₁ → buf.length ≤ n₂ →
    extractEvents n₁ buf = extractEvents n₂ buf
  | 0, buf, n₂, h1, _ => by
    have hb : buf = [] := List.length_eq_zero.mp (Nat.le_zero.mp h1)
    subst hb
    cases n₂ with
    | zero => rfl
    | succ m => simp [extractEvents, splitNN]
  | n + 1, buf, n₂, h1, h2 => by
    cases n₂ with
    | zero =>
      have hb : buf = [] := List.length_eq_zero.mp (Nat.le_zero.mp h2)
      subst hb
      simp [extractEvents, splitNN]
    | succ m =>
      rw [extractEvents, extractEvents]
      rcases hsp : splitNN buf with _ | ⟨e, r⟩
      · rfl
      · have hlen := splitNN_length buf e r hsp
        have hc := extractEvents_congr n r m (by omega) (by omega)
        dsimp only
        rw [hc]

/-- A separator-free buffer extracts nothing. -/
theorem runExtract_none (buf : List Char) (h : splitNN buf = none) :
    runExtract buf = ([], buf) := by
  unfold runExtract
  cases hl : buf.length with
  | zero => rfl
  | succ m =>
    rw [extractEvents, h]

/-- Extraction peels off the first event. -/
theorem runExtract_some (buf e r : List Char) (h : splitNN buf = some (e, r)) :
    runExtract buf = (e :: (runExtract r).1, (runExtract r).2) := by
  have hlen := splitNN_length buf e r h
  obtain ⟨m, hm⟩ : ∃ m, buf.length = m + 1 := ⟨e.length + r.length + 1, by omega⟩
  have hc : extractEvents m r = runExtract r :=
    extractEvents_congr m r r.length (by omega) (by omega)
  unfold runExtract
  rw [hm, extractEvents, h]
  dsimp only
  rw [hc]
  rfl

/-- The residual buffer after extraction contains no separator. -/
theorem runExtract_resid : ∀ (N : Nat) (buf : List Char), buf.length ≤ N →
    splitNN (runExtract buf).2 = none
  | 0, buf, hN => by
    have hb : buf = [] := List.length_eq_zero.mp (Nat.le_zero.mp hN)
    subst hb
    rfl
  | N + 1, buf, hN => by
    rcases hsp : splitNN buf with _ | ⟨e, r⟩
    · rw [runExtract_none buf hsp]
      exact hsp
    · rw [runExtract_some buf e r hsp]
      have hlen := splitNN_length buf e r hsp
      exact runExtract_resid N r (by omega)

/-- Incremental extraction: the events of `s ++ w` are the events of
`s` followed by the events of the residual of `s` glued to `w`. -/
theorem runExtract_append : ∀ (N : Nat) (s : List Char), s.length ≤ N →
    ∀ w : List Char,
    runExtract (s ++ w) =
      ((runExtract s).1 ++ (runExtract ((runExtract s).2 ++ w)).1,
       (runExtract ((runExtract s).2 ++ w)).2)
  | 0, s, h, w => by
    have hs : s = [] := List.length_eq_zero.mp (Nat.le_zero.mp h)
    subst hs
    rw [runExtract_none [] rfl]
    simp
  | N + 1, s, h, w => by
    rcases hsp : splitNN s with _ | ⟨e, r⟩
    · rw [runExtract_none s hsp]
      simp
    · have hlen := splitNN_length s e r hsp
      have hw := splitNN_append s e r w hsp
      rw [runExtract_some s e r hsp, runExtract_some (s ++ w) e (r ++ w) hw]
      have ih := runExtract_append N r (by omega) w
      rw [ih]
      simp [List.cons_append]

end Relay

namespace Relay

/-- `splitLines` always yields at least one line. -/
theorem splitLines_ne_nil : ∀ l : List Char, splitLines l ≠ []
  | [] => by simp [splitLines]
  | c :: rest => by
    rw [splitLines]
    split_ifs
    · simp
    · rcases h : splitLines rest with _ | ⟨a, as⟩
      · simp
      · simp

/-- Splitting across an explicit newline. -/
theorem splitLines_append_nl : ∀ (x z : List Char),
    splitLines (x ++ '\n' :: z) = splitLines x ++ splitLines z
  | [], z => by simp [splitLines]
  | c :: x', z => by
    show splitLines (c :: (x' ++ '\n' :: z)) = _
    rw [splitLines, splitLines]
    by_cases hc : c = '\n'
    · rw [if_pos hc, if_pos hc, splitLines_append_nl x' z]
      rfl
    · rw [if_neg hc, if_neg hc, splitLines_append_nl x' z]
      rcases h : splitLines x' with _ | ⟨a, as⟩
      · exact absurd h (splitLines_ne_nil x')
      · rfl

/-- Lines of a whitespace-only string are whitespace-only. -/
theorem wsOnly_splitLines : ∀ l : List Char, wsOnly l = true →
    ∀ x ∈ splitLines l, wsOnly x = true
  | [], _, x, hx => by
    simp only [splitLines, List.mem_singleton] at hx
    subst hx
    rfl
  | c :: rest, h, x, hx => by
    simp only [wsOnly, List.all_cons, Bool.and_eq_true] at h
    by_cases hc : c = '\n'
    · rw [splitLines, if_pos hc] at hx
      rcases List.mem_cons.mp hx with rfl | hx
      · rfl
      · exact wsOnly_splitLines rest h.2 x hx
    · rw [splitLines, if_neg hc] at hx
      rcases hsl : splitLines rest with _ | ⟨a, as⟩
      · exact absurd hsl (splitLines_ne_nil rest)
      · rw [hsl] at hx
        rcases List.mem_cons.mp hx with rfl | hx
        · have ha := wsOnly_splitLines rest h.2 a
            (by rw [hsl]; exact List.mem_cons_self _ _)
          simp only [wsOnly, List.all_cons, Bool.and_eq_true]
          exact ⟨h.1, ha⟩
        · exact wsOnly_splitLines rest h.2 x
            (by rw [hsl]; exact List.mem_cons_of_mem _ hx)

/-- A whitespace-only line carries no `data: ` payload. -/
theorem wsLine_payload (l : List Char) (h : wsOnly l = true) : linePayload l = none := by
  have hpre : dataMark.isPrefixOf l = false := by
    cases l with
    | nil => decide
    | cons c l' =>
      simp only [wsOnly, List.all_cons, Bool.and_eq_true] at h
      have hd : dataMark = 'd' :: str "ata: " := by decide
      rw [hd]
      show (('d' :: str "ata: ").isPrefixOf (c :: l')) = false
      by_cases hdc : c = 'd'
      · subst hdc
        exact absurd h.1 (by decide)
      · simp [List.isPrefixOf, hdc, Ne.symm hdc]
  unfold linePayload
  rw [hpre]
  simp

/-- `eventPayloads` is line filtering, with or without the
whitespace-event shortcut. -/
theorem eventPayloads_eq (e : List Char) :
    eventPayloads e = (splitLines e).filterMap linePayload := by
  unfold eventPayloads
  split_ifs with h
  · symm
    rw [List.filterMap_eq_nil_iff]
    intro a ha
    exact wsLine_payload a (wsOnly_splitLines e h a ha)
  · rfl

/-- A string ending in a newline decomposes off that newline. -/
theorem endsLF_decomp : ∀ s : List Char, endsLF s = true →
    s = s.dropLast ++ ['\n']
  | [], h => by simp [endsLF] at h
  | [c], h => by
    simp only [endsLF, decide_eq_true_eq] at h
    subst h
    rfl
  | a :: b :: rest, h => by
    rw [show endsLF (a :: b :: rest) = endsLF (b :: rest) from rfl] at h
    have := endsLF_decomp (b :: rest) h
    show a :: (b :: rest) = (a :: b :: rest).dropLast ++ ['\n']
    rw [show (a :: b :: rest).dropLast = a :: (b :: rest).dropLast from rfl]
    rw [List.cons_append, ← this]

end Relay

namespace Relay

/-- The flush chunk `"\n\n"` is already CRLF-normalized. -/
theorem normCRLF_flush : normCRLF (str "\n\n") = ['\n', '\n'] := by decide

/-- Flushing a nonempty residual buffer extracts from `buf ++ "\n\n"`. -/
theorem feedChunk_flush (buf : List Char) (h : buf ≠ []) :
    feedChunk buf (str "\n\n") =
      ((runExtract (buf ++ ['\n', '\n'])).2,
       (runExtract (buf ++ ['\n', '\n'])).1.flatMap eventPayloads) := by
  unfold feedChunk
  rw [normCRLF_flush]
  rw [if_neg (by rintro ⟨-, hb⟩; exact h hb)]

/-- Flushing the empty buffer is the heartbeat short-circuit. -/
theorem feedChunk_flush_nil : feedChunk [] (str "\n\n") = ([], []) := by decide

/-- Bridge: the complete-stream payloads are exactly line splitting plus
per-line `data: ` filtering over the whole byte string. -/
theorem fullPayloads_eq_lines : ∀ (N : Nat) (s : List Char), s.length ≤ N →
    fullPayloads s = (splitLines s).filterMap linePayload
  | 0, s, hN => by
    have hs : s = [] := List.length_eq_zero.mp (Nat.le_zero.mp hN)
    subst hs
    decide
  | N + 1, s, hN => by
    rcases hsp : splitNN s with _ | ⟨e, r⟩
    · -- no separator: everything happens at the flush
      rcases hs : s with _ | ⟨c, s'⟩
      · decide
      rw [← hs]
      have hne : s ≠ [] := by rw [hs]; exact List.cons_ne_nil _ _
      unfold fullPayloads
      rw [runExtract_none s hsp, feedChunk_flush s hne]
      have hsep := splitNN_none_append_sep s hsp
      simp only [List.flatMap_nil, List.nil_append]
      by_cases hlf : endsLF s = true
      · rw [if_pos hlf] at hsep
        rw [runExtract_some _ _ _ hsep]
        rw [runExtract_none ['\n'] rfl]
        have hdec := endsLF_decomp s hlf
        conv_rhs => rw [hdec]
        rw [show (['\n'] : List Char) = '\n' :: [] from rfl,
          splitLines_append_nl s.dropLast []]
        rw [List.filterMap_append]
        simp only [List.flatMap_cons, List.flatMap_nil, List.append_nil,
          eventPayloads_eq]
        simp [splitLines, linePayload, dataMark, str]
      · rw [if_neg hlf] at hsep
        rw [runExtract_some _ _ _ hsep]
        rw [runExtract_none [] rfl]
        simp only [List.flatMap_cons, List.flatMap_nil, List.append_nil,
          eventPayloads_eq]
    · -- a separator: peel the first event and recurse
      have hlen := splitNN_length s e r hsp
      have hdec := splitNN_decomp s e r hsp
      have ih := fullPayloads_eq_lines N r (by omega)
      unfold fullPayloads
      rw [runExtract_some s e r hsp]
      simp only [List.flatMap_cons, List.append_assoc]
      have : (runExtract r).1.flatMap eventPayloads ++
          (feedChunk (runExtract r).2 (str "\n\n")).2 =
          (splitLines r).filterMap linePayload := ih
      rw [this]
      conv_rhs => rw [hdec]
      rw [show ('\n' :: '\n' :: r : List Char) = '\n' :: ('\n' :: r) from rfl,
        splitLines_append_nl e ('\n' :: r)]
      rw [show splitLines ('\n' :: r) = [] :: splitLines r from by
        rw [splitLines]; rw [if_pos rfl]]
      rw [List.filterMap_append, eventPayloads_eq]
      simp [linePayload, dataMark, str]

end Relay

namespace Relay

/-- Feeding only non-heartbeat chunks is total extraction of the
normalized concatenation. -/
theorem feedAll_total : ∀ (chunks : List (List Char)) (buf : List Char),
    (∀ c ∈ chunks, wsOnly (normCRLF c) = false) → splitNN buf = none →
    feedAll buf chunks =
      ((runExtract (buf ++ chunks.flatMap normCRLF)).2,
       (runExtract (buf ++ chunks.flatMap normCRLF)).1.flatMap eventPayloads)
  | [], buf, _, hbuf => by
    simp only [List.flatMap_nil, List.append_nil]
    rw [runExtract_none buf hbuf]
    rfl
  | c :: cs, buf, h, hbuf => by
    have hc := h c (List.mem_cons_self _ _)
    have hfc : feedChunk buf c =
        ((runExtract (buf ++ normCRLF c)).2,
         (runExtract (buf ++ normCRLF c)).1.flatMap eventPayloads) := by
      unfold feedChunk
      rw [if_neg (by rintro ⟨hws, -⟩; rw [hc] at hws; exact Bool.false_ne_true hws)]
    have hres : splitNN (runExtract (buf ++ normCRLF c)).2 = none :=
      runExtract_resid (buf ++ normCRLF c).length _ le_rfl
    have ih := feedAll_total cs (runExtract (buf ++ normCRLF c)).2
      (fun x hx => h x (List.mem_cons_of_mem _ hx)) hres
    have happ := runExtract_append (buf ++ normCRLF c).length (buf ++ normCRLF c)
      le_rfl (cs.flatMap normCRLF)
    rw [feedAll]
    rw [hfc]
    simp only
    rw [ih]
    rw [List.flatMap_cons, ← List.append_assoc, happ]
    rw [List.flatMap_append]

/-- For streams with no heartbeat chunk, the whole stream (including the
flush) is total extraction of the normalized concatenation. -/
theorem streamPayloads_total (chunks : List (List Char))
    (h : ∀ c ∈ chunks, wsOnly (normCRLF c) = false) :
    streamPayloads chunks = fullPayloads (chunks.flatMap normCRLF) := by
  unfold streamPayloads fullPayloads
  have hfa := feedAll_total chunks [] h rfl
  rw [List.nil_append] at hfa
  rw [hfa]

/-- CRLF normalization preserves whitespace-onlyness. -/
theorem wsOnly_normCRLF : ∀ l : List Char, wsOnly (normCRLF l) = wsOnly l
  | [] => rfl
  | [_] => rfl
  | c :: d :: rest => by
    rw [normCRLF]
    split_ifs with h
    · obtain ⟨rfl, rfl⟩ := h
      show (isWS '\n' && wsOnly (normCRLF rest)) = _
      rw [wsOnly_normCRLF rest]
      show (true && wsOnly rest) = (isWS '\r' && (isWS '\n' && wsOnly rest))
      rfl
    · show (isWS c && wsOnly (normCRLF (d :: rest))) = (isWS c && wsOnly (d :: rest))
      rw [wsOnly_normCRLF (d :: rest)]

/-- A whitespace-only stream yields no payloads. -/
theorem fullPayloads_ws (s : List Char) (h : wsOnly s = true) : fullPayloads s = [] := by
  rw [fullPayloads_eq_lines s.length s le_rfl]
  rw [List.filterMap_eq_nil_iff]
  intro a ha
  exact wsLine_payload a (wsOnly_splitLines s h a ha)

/-- A one-chunk stream is total extraction of its normalization, whether
or not the chunk is a heartbeat. -/
theorem streamPayloads_single (w : List Char) :
    streamPayloads [w] = fullPayloads (normCRLF w) := by
  by_cases hw : wsOnly (normCRLF w) = true
  · have h1 : feedChunk [] w = ([], []) := by
      unfold feedChunk
      rw [if_pos ⟨hw, rfl⟩]
    have hlhs : streamPayloads [w] = [] := by
      unfold streamPayloads feedAll
      rw [h1]
      simp [feedAll, feedChunk_flush_nil]
    rw [hlhs, fullPayloads_ws _ hw]
  · have := streamPayloads_total [w]
      (by intro c hc; rcases List.mem_singleton.mp hc with rfl
          exact Bool.not_eq_true _ ▸ (Bool.eq_false_iff.mpr hw))
    rw [this]
    simp

end Relay

namespace Relay

/-- `isPrefixOf` as a `take` equation. -/
theorem isPrefixOf_iff_take : ∀ (p l : List Char),
    p.isPrefixOf l = true ↔ l.take p.length = p
  | [], l => by simp [List.isPrefixOf]
  | _ :: _, [] => by simp [List.isPrefixOf]
  | a :: as, b :: bs => by
    simp only [List.isPrefixOf, Bool.and_eq_true, beq_iff_eq, List.length_cons,
      List.take_succ_cons, List.cons.injEq]
    rw [isPrefixOf_iff_take as bs]
    tauto

/-- A trailing `\r` is trimmed away. -/
theorem jsTrim_cr (x : List Char) : jsTrim (x ++ ['\r']) = jsTrim x := by
  unfold jsTrim dropTrail
  rw [List.reverse_append]
  rw [show (['\r'] : List Char).reverse ++ x.reverse = '\r' :: x.reverse from rfl]
  rw [List.dropWhile_cons, if_pos (by decide)]

/-- A trailing `\r` does not affect the `data: ` marker check. -/
theorem dataMark_isPrefixOf_cr (L : List Char) :
    dataMark.isPrefixOf (L ++ ['\r']) = dataMark.isPrefixOf L := by
  have hdl : dataMark.length = 6 := by decide
  rcases Nat.lt_or_ge L.length 6 with hlt | hge
  · have hL : dataMark.isPrefixOf L = false := by
      rw [Bool.eq_false_iff]
      intro hp
      have ht := (isPrefixOf_iff_take _ _).mp hp
      have hlen := congrArg List.length ht
      rw [List.length_take, hdl] at hlen
      omega
    rw [hL, Bool.eq_false_iff]
    intro hp
    have ht := (isPrefixOf_iff_take _ _).mp hp
    have hlen := congrArg List.length ht
    rw [List.length_take, hdl, List.length_append] at hlen
    have hL5 : L.length = 5 := by simp at hlen; omega
    have hfull : (L ++ ['\r']).take dataMark.length = L ++ ['\r'] :=
      List.take_of_length_le (by rw [hdl, List.length_append]; simp [hL5])
    rw [hfull] at ht
    have hlast := congrArg List.getLast? ht
    rw [List.getLast?_concat] at hlast
    have : dataMark.getLast? = some ' ' := by decide
    rw [this] at hlast
    exact absurd (Option.some.inj hlast) (by decide)
  · have htake : (L ++ ['\r']).take dataMark.length = L.take dataMark.length := by
      rw [hdl]
      exact List.take_append_of_le_length hge
    cases hA : dataMark.isPrefixOf L
    · rw [Bool.eq_false_iff]
      intro hB
      have ht := (isPrefixOf_iff_take _ _).mp hB
      rw [htake] at ht
      exact (Bool.eq_false_iff.mp hA) ((isPrefixOf_iff_take _ _).mpr ht)
    · exact (isPrefixOf_iff_take _ _).mpr
        (htake.trans ((isPrefixOf_iff_take _ _).mp hA))

/-- A trailing `\r` never changes a line's payload. -/
theorem linePayload_cr (L : List Char) :
    linePayload (L ++ ['\r']) = linePayload L := by
  unfold linePayload
  rw [dataMark_isPrefixOf_cr]
  split_ifs with h
  · have h6 : 6 ≤ L.length := by
      have ht := (isPrefixOf_iff_take _ _).mp h
      have hlen := congrArg List.length ht
      rw [List.length_take, show dataMark.length = 6 from by decide] at hlen
      omega
    rw [List.drop_append_of_le_length h6, jsTrim_cr]
  · rfl

/-- Appending `\r` appends it to the last line. -/
theorem splitLines_cr : ∀ u : List Char, ∃ I L,
    splitLines u = I ++ [L] ∧ splitLines (u ++ ['\r']) = I ++ [L ++ ['\r']]
  | [] => ⟨[], [], rfl, rfl⟩
  | c :: u' => by
    obtain ⟨I, L, h1, h2⟩ := splitLines_cr u'
    by_cases hc : c = '\n'
    · refine ⟨[] :: I, L, ?_, ?_⟩
      · rw [splitLines, if_pos hc, h1]
        rfl
      · show splitLines (c :: (u' ++ ['\r'])) = _
        rw [splitLines, if_pos hc, h2]
        rfl
    · rcases I with _ | ⟨I0, Is⟩
      · refine ⟨[], c :: L, ?_, ?_⟩
        · rw [splitLines, if_neg hc, h1]
          rfl
        · show splitLines (c :: (u' ++ ['\r'])) = _
          rw [splitLines, if_neg hc, h2]
          rfl
      · refine ⟨(c :: I0) :: Is, L, ?_, ?_⟩
        · rw [splitLines, if_neg hc, h1]
          rfl
        · show splitLines (c :: (u' ++ ['\r'])) = _
          rw [splitLines, if_neg hc, h2]
          rfl

/-- A trailing `\r` never changes the payload stream. -/
theorem filterMap_splitLines_cr (u : List Char) :
    (splitLines (u ++ ['\r'])).filterMap linePayload =
      (splitLines u).filterMap linePayload := by
  obtain ⟨I, L, h1, h2⟩ := splitLines_cr u
  rw [h1, h2, List.filterMap_append, List.filterMap_append]
  simp only [List.filterMap_cons, List.filterMap_nil, linePayload_cr]

/-- One `\r\n → \n` rewrite never changes the payload stream. -/
theorem rw_lines_invariant (s t : List Char) (h : RwCRLF s t) :
    (splitLines s).filterMap linePayload = (splitLines t).filterMap linePayload := by
  obtain ⟨u, v, hs, ht⟩ := h
  subst hs
  subst ht
  rw [show u ++ '\r' :: '\n' :: v = (u ++ ['\r']) ++ '\n' :: v from by simp]
  rw [splitLines_append_nl, splitLines_append_nl]
  rw [List.filterMap_append, List.filterMap_append, filterMap_splitLines_cr]

/-- Chains of `\r\n → \n` rewrites never change the payload stream. -/
theorem star_lines_invariant (s t : List Char)
    (h : Relation.ReflTransGen RwCRLF s t) :
    (splitLines s).filterMap linePayload = (splitLines t).filterMap linePayload := by
  induction h with
  | refl => rfl
  | tail _ hst ih => exact ih.trans (rw_lines_invariant _ _ hst)

/-- `RwCRLF` is closed under a left context. -/
theorem rwCRLF_append_left (w s t : List Char) (h : RwCRLF s t) :
    RwCRLF (w ++ s) (w ++ t) := by
  obtain ⟨u, v, hs, ht⟩ := h
  exact ⟨w ++ u, v, by rw [hs, List.append_assoc], by rw [ht, List.append_assoc]⟩

/-- Star closure under a left context. -/
theorem star_append_left (w s t : List Char)
    (h : Relation.ReflTransGen RwCRLF s t) :
    Relation.ReflTransGen RwCRLF (w ++ s) (w ++ t) :=
  Relation.ReflTransGen.lift (fun x => w ++ x)
    (fun a b hab => rwCRLF_append_left w a b hab) h

/-- `normCRLF` steps over a non-`\r` head. -/
theorem normCRLF_cons_ne_cr (c : Char) (l : List Char) (h : c ≠ '\r') :
    normCRLF (c :: l) = c :: normCRLF l := by
  cases l with
  | nil => rfl
  | cons d l' =>
    rw [normCRLF, if_neg (by rintro ⟨rfl, -⟩; exact h rfl)]

/-- Piecewise normalization rewrites to whole-string normalization: the
only differences are `\r\n` pairs straddling the boundary. -/
theorem norm_append_star : ∀ (a b : List Char),
    Relation.ReflTransGen RwCRLF (normCRLF a ++ normCRLF b) (normCRLF (a ++ b))
  | [], _ => Relation.ReflTransGen.refl
  | [c], b => by
    cases b with
    | nil => exact Relation.ReflTransGen.refl
    | cons d b' =>
      by_cases h : c = '\r' ∧ d = '\n'
      · obtain ⟨rfl, rfl⟩ := h
        rw [show ((['\r'] : List Char) ++ ('\n' :: b')) = '\r' :: '\n' :: b' from rfl]
        rw [show normCRLF ('\r' :: '\n' :: b') = '\n' :: normCRLF b' from by
          rw [normCRLF, if_pos ⟨rfl, rfl⟩]]
        rw [show normCRLF ('\n' :: b') = '\n' :: normCRLF b' from
          normCRLF_cons_ne_cr '\n' b' (by decide)]
        exact Relation.ReflTransGen.single ⟨[], normCRLF b', rfl, rfl⟩
      · rw [show (([c] : List Char) ++ (d :: b')) = c :: d :: b' from rfl]
        rw [show normCRLF (c :: d :: b') = c :: normCRLF (d :: b') from by
          rw [normCRLF, if_neg h]]
        exact Relation.ReflTransGen.refl
  | c :: d :: a', b => by
    by_cases h : c = '\r' ∧ d = '\n'
    · obtain ⟨rfl, rfl⟩ := h
      rw [show normCRLF ('\r' :: '\n' :: a') = '\n' :: normCRLF a' from by
        rw [normCRLF, if_pos ⟨rfl, rfl⟩]]
      rw [show (('\r' :: '\n' :: a') ++ b) = '\r' :: '\n' :: (a' ++ b) from rfl]
      rw [show normCRLF ('\r' :: '\n' :: (a' ++ b)) = '\n' :: normCRLF (a' ++ b) from by
        rw [normCRLF, if_pos ⟨rfl, rfl⟩]]
      exact star_append_left ['\n'] _ _ (norm_append_star a' b)
    · rw [show normCRLF (c :: d :: a') = c :: normCRLF (d :: a') from by
        rw [normCRLF, if_neg h]]
      rw [show ((c :: d :: a') ++ b) = c :: ((d :: a') ++ b) from rfl]
      rw [show normCRLF (c :: ((d :: a') ++ b)) = c :: normCRLF ((d :: a') ++ b) from by
        rw [show ((d :: a') ++ b) = d :: (a' ++ b) from rfl, normCRLF, if_neg h]]
      exact star_append_left [c] _ _ (norm_append_star (d :: a') b)

/-- Chunkwise normalization rewrites to whole-stream normalization. -/
theorem flatMap_norm_star : ∀ chunks : List (List Char),
    Relation.ReflTransGen RwCRLF (chunks.flatMap normCRLF) (normCRLF chunks.flatten)
  | [] => Relation.ReflTransGen.refl
  | c :: cs => by
    rw [List.flatMap_cons, List.flatten_cons]
    exact (star_append_left (normCRLF c) _ _ (flatMap_norm_star cs)).trans
      (norm_append_star c cs.flatten)

end Relay

namespace Relay

/-- **C1 (counterexample).** The spec says conversion output is identical
however the stream is split into chunks. False at the payload level: a
whitespace-only chunk arriving while the buffer is empty is swallowed by
the heartbeat short-circuit, but the same bytes at the front of a larger
chunk become part of the buffered stream. Splitting
`" data: X\n\n"` as `[" ", "data: X\n\n"]` yields the payload `X`;
unsplit, the leading space makes the line ` data: X`, which fails the
`data: ` check and yields no payload. -/
theorem c1_counterexample :
    streamPayloads [[' '], str "data: X\n\n"] ≠
      streamPayloads [[' '] ++ str "data: X\n\n"] := by decide

/-- **C1 (amended).** For streams with no whitespace-only chunk, the
sequence of extracted `data: ` payloads (including the end-of-stream
flush of the residual buffer) is independent of how the byte stream is
split into chunks: feeding the chunks one by one equals feeding the
whole concatenation at once. Since the converter consumes exactly this
payload sequence, conversion output is chunking-invariant on such
streams. -/
theorem c1_amended (chunks : List (List Char))
    (h : ∀ c ∈ chunks, wsOnly c = false) :
    streamPayloads chunks = streamPayloads [chunks.flatten] := by
  have hn : ∀ c ∈ chunks, wsOnly (normCRLF c) = false := fun c hc => by
    rw [wsOnly_normCRLF]
    exact h c hc
  rw [streamPayloads_total chunks hn, streamPayloads_single,
    fullPayloads_eq_lines (chunks.flatMap normCRLF).length _ le_rfl,
    fullPayloads_eq_lines (normCRLF chunks.flatten).length _ le_rfl]
  exact star_lines_invariant _ _ (flatMap_norm_star chunks)

/-- **C1 (witness).** A concrete split stream carrying two events, with
the second event completed only by the flush, satisfies the amended
theorem's hypothesis and conclusion. -/
theorem c1_witness :
    (∀ c ∈ [str "data: A\r\n", str "\ndata: B", str "\n\ndata: C"],
      wsOnly c = false) ∧
    streamPayloads [str "data: A\r\n", str "\ndata: B", str "\n\ndata: C"] =
      streamPayloads [[str "data: A\r\n", str "\ndata: B",
        str "\n\ndata: C"].flatten] :=
  ⟨by decide, c1_amended _ (by decide)⟩

end Relay
